import Mathlib

/-!
# A verification model of the `mpt` immutable Merkle Patricia Trie

This file embeds the Go sources of the `mpt` repository (an immutable
Merkle Patricia Trie over a key/value store) into Lean 4 and proves, or
refutes, the specification claims about it.

Modelling conventions:
* Go byte slices become `List Nat` (`Bytes`); a byte is a `Nat` that callers
  keep below 256.  Go `nil` slices and empty slices are identified (the only
  observations the code makes are `len`, equality, and indexing).
* The cryptographic digest is an external collaborator of the repository
  ("a 256-bit collision-resistant digest — any fixed-width CRH satisfies the
  contract").  It is modelled by `keccak256`, an executable *injective*
  digest producing a fixed 32-element output — the standard idealisation of
  a collision-resistant hash.
* The wire format is an external collaborator as well ("a length-prefixed
  structured encoding with ordered fields; an implementation may pick any
  such format as long as it is byte-deterministic"); it is modelled by a
  length-prefixed encoding of the same ordered fields that the Go code
  serialises with protobuf.
* Recursions of the Go code that are not structural (they recurse through
  hash resolution) take an explicit fuel argument; exhausting the fuel
  yields the distinguished result `PRes.timeout`, `panic` in Go becomes
  `PRes.panicked msg`, and mutation of the receiver's update log (the only
  mutation the code performs) is returned explicitly.
-/

namespace Mpt

abbrev Bytes := List Nat

/-! ## Nibble codec (`encoding.go`) -/

def bytesToNibbles : Bytes → Bytes
  | [] => []
  | b :: rest => b / 16 :: b % 16 :: bytesToNibbles rest

def nibblesToBytes : Bytes → Bytes
  | n1 :: n2 :: rest => (n1 * 16 + n2) :: nibblesToBytes rest
  | _ => []

def leafType : Nat := 0x00
def extType : Nat := 0x01
def branchType : Nat := 0x02

/-- get flag byte and stored key bytes according to key nibbles and node type -/
def encodeKey (nibbles : Bytes) (nodeType : Nat) : Bytes × Nat :=
  let needPad : Nat := if nibbles.length % 2 ≠ 0 then 1 else 0
  let padded : Bytes := if nibbles.length % 2 ≠ 0 then nibbles ++ [0] else nibbles
  (nibblesToBytes padded, needPad * 16 + nodeType)

/-- recover key nibbles and node type from flag and key bytes -/
def decodeKey (flag : Nat) (bs : Bytes) : Bytes × Nat :=
  let nibbles := bytesToNibbles bs
  (if flag / 16 = 1 then nibbles.dropLast else nibbles, flag % 16)

/-- matchingLength returns the common prefix length of two byte strings -/
def matchingLength : Bytes → Bytes → Nat
  | x :: a, y :: b => if x = y then matchingLength a b + 1 else 0
  | _, _ => 0

/-- concat concat two byte slice to new one, without change original slice -/
def concat (a b : Bytes) : Bytes := a ++ b

/-! ## The digest

Modelled from the spec: the cryptographic hash primitive is an external
collaborator ("Keccak-256 is assumed, but any fixed-width CRH satisfies the
contract").  We idealise collision resistance as injectivity: `keccak256`
packs the binary digits of every input element, separated by a marker
digit, into one natural number and pads the result to the fixed digest
width 32. -/

/-- Push the binary digits of `m` (most significant first) below `acc` in
base 4; the first argument is fuel, always called with fuel `= m`. -/
def encNatA : Nat → Nat → Nat → Nat
  | 0, _, acc => acc
  | fuel + 1, m, acc => if m = 0 then acc else (encNatA fuel (m / 2) acc) * 4 + m % 2

def encNat (m acc : Nat) : Nat := encNatA m m acc

/-- Injectively encode a list of naturals into one natural: a sentinel `1`,
then for each element (right to left) a separator digit `2` followed by the
element's binary digits, all in base 4. -/
def encList : List Nat → Nat
  | [] => 1
  | n :: l => encNat n (encList l * 4 + 2)

/-- Pop binary digits (base-4 digits `0`/`1`) off `x` until a separator
digit (`≥ 2`) or `0` is reached; returns the popped number and the rest. -/
def decNatA : Nat → Nat → Nat × Nat
  | 0, x => (0, x)
  | fuel + 1, x =>
    if 2 ≤ x % 4 ∨ x = 0 then (0, x)
    else
      let p := decNatA fuel (x / 4)
      (2 * p.1 + x % 4, p.2)

/-- Decoder for `encList`, used to prove injectivity of the digest. -/
def decListA : Nat → Nat → Option (List Nat)
  | 0, _ => none
  | fuel + 1, x =>
    if x ≤ 1 then (if x = 1 then some [] else none)
    else
      let p := decNatA x x
      match decListA fuel (p.2 / 4) with
      | some l => some (p.1 :: l)
      | none => none

/-- The idealised 32-wide digest. -/
def keccak256 (bs : Bytes) : Bytes := encList bs :: List.replicate 31 0

/-- EmptyHash is hash of empty trie -/
def EmptyHash : Bytes := keccak256 []

/-! ## Node model (`node.go`) -/

mutual
/-- The four node variants.  Go's `[16]node` array of nillable children is
`Children`, a 16-slot sequence of present/absent nodes; Go's nillable
`target []byte` is `Option Bytes` (a decoded empty target is `none`, which
is how the Go wire format behaves). -/
inductive Node : Type where
  | leaf (key value : Bytes)
  | ext (key : Bytes) (child : Node)
  | branch (children : Children) (target : Option Bytes)
  | hashN (h : Bytes)
deriving Repr
inductive Children : Type where
  | nil
  | consNone (tl : Children)
  | consSome (hd : Node) (tl : Children)
deriving Repr
end

def Children.get : Children → Nat → Option Node
  | .nil, _ => none
  | .consNone _, 0 => none
  | .consSome c _, 0 => some c
  | .consNone tl, i + 1 => tl.get i
  | .consSome _ tl, i + 1 => tl.get i

def Children.set : Children → Nat → Option Node → Children
  | .nil, _, _ => .nil
  | .consNone tl, 0, none => .consNone tl
  | .consNone tl, 0, some c => .consSome c tl
  | .consSome _ tl, 0, none => .consNone tl
  | .consSome _ tl, 0, some c => .consSome c tl
  | .consNone tl, i + 1, v => .consNone (tl.set i v)
  | .consSome c tl, i + 1, v => .consSome c (tl.set i v)

def Children.count : Children → Nat
  | .nil => 0
  | .consNone tl => tl.count + 1
  | .consSome _ tl => tl.count + 1

def Children.emptyN : Nat → Children
  | 0 => .nil
  | n + 1 => .consNone (emptyN n)

def Children.empty16 : Children := Children.emptyN 16

def Children.indexFrom : Children → Nat → List Nat
  | .nil, _ => []
  | .consNone tl, i => tl.indexFrom (i + 1)
  | .consSome _ tl, i => i :: tl.indexFrom (i + 1)

/-- return the index of children -/
def childrenIndex (ch : Children) : List Nat := ch.indexFrom 0

/-- Go `nil`/empty byte-slice conflation for the branch target: the wire
format drops an empty target, so an empty target is `none`. -/
def optBytes (v : Bytes) : Option Bytes := if v = [] then none else some v

def branchWithTarget (target : Bytes) : Node := .branch Children.empty16 (optBytes target)

def branchWithChild (pos : Nat) (n : Node) (target : Option Bytes) : Node :=
  .branch (Children.empty16.set pos (some n)) target

def branchWithChildren (children : Children) : Node := .branch children none

def updateTarget (children : Children) (target : Bytes) : Node :=
  .branch children (optBytes target)

def updateChild (children : Children) (target : Option Bytes) (pos : Nat) (child : Option Node) :
    Node :=
  .branch (children.set pos child) target

def hasTarget (target : Option Bytes) : Bool := target.isSome

/-- A length-prefixed field of the wire format (modelled from the spec: any
byte-deterministic length-prefixed structured encoding is admissible). -/
def lenPrefixed (b : Bytes) : Bytes := b.length :: b

mutual
/-- Canonical serialization: the ordered fields of the variant, each length
prefixed, followed by the one-byte flag (`encodeKey`'s flag for leaf and
extension, `branchType` for a branch).  A hash-reference node encodes as its
hash, exactly as in the source. -/
def Node.Encode : Node → Bytes
  | .leaf k v =>
    let p := encodeKey k leafType
    lenPrefixed p.1 ++ lenPrefixed v ++ [p.2]
  | .ext k c =>
    let capped : Bytes :=
      match c with
      | .hashN h => h
      | c' => let e := Node.Encode c'; if e.length < 32 then e else keccak256 e
    let p := encodeKey k extType
    lenPrefixed p.1 ++ lenPrefixed capped ++ [p.2]
  | .branch ch t => Node.encodeCh ch ++ lenPrefixed (t.getD []) ++ [branchType]
  | .hashN h => h
/-- The 16 child slots of a branch, in slot order: an absent child is an
empty field, a present child contributes its capped form. -/
def Node.encodeCh : Children → Bytes
  | .nil => []
  | .consNone tl => lenPrefixed [] ++ Node.encodeCh tl
  | .consSome c tl =>
    let capped : Bytes :=
      match c with
      | .hashN h => h
      | c' => let e := Node.Encode c'; if e.length < 32 then e else keccak256 e
    lenPrefixed capped ++ Node.encodeCh tl
end

def Node.Hash : Node → Bytes
  | .hashN h => h
  | n => keccak256 n.Encode

def Node.Capped : Node → Bytes
  | .hashN h => h
  | n => let e := n.Encode; if e.length < 32 then e else keccak256 e

/-! ## Node decoding -/

/-- Read one length-prefixed field. -/
def readField : Bytes → Option (Bytes × Bytes)
  | [] => none
  | len :: rest => if len ≤ rest.length then some (rest.take len, rest.drop len) else none

def decodeLeafNode (raw : Bytes) (flag : Nat) : Except String Node :=
  match readField raw with
  | none => .error "proto: malformed leaf"
  | some (keyBytes, r1) =>
    match readField r1 with
    | none => .error "proto: malformed leaf"
    | some (value, r2) =>
      if r2 = [] then .ok (.leaf (decodeKey flag keyBytes).1 value)
      else .error "proto: malformed leaf"

mutual
def decodeA : Nat → Bytes → Except String Node
  | 0, _ => .error "decode: out of fuel"
  | fuel + 1, bs =>
    if bs.length ≤ 1 then .error "unexpected EOF"
    else
      let flag := bs.getLastD 0
      let raw := bs.dropLast
      if flag % 16 = leafType then decodeLeafNode raw flag
      else if flag % 16 = extType then decodeExtNode fuel raw flag
      else if flag % 16 = branchType then decodeBranchNode fuel raw
      else .error "unknown node type"
def decodeExtNode : Nat → Bytes → Nat → Except String Node
  | 0, _, _ => .error "decode: out of fuel"
  | fuel + 1, raw, flag =>
    match readField raw with
    | none => .error "proto: malformed ext"
    | some (keyBytes, r1) =>
      match readField r1 with
      | none => .error "proto: malformed ext"
      | some (nodeBytes, r2) =>
        if r2 = [] then
          if nodeBytes.length = 32 then .ok (.ext (decodeKey flag keyBytes).1 (.hashN nodeBytes))
          else
            match decodeA fuel nodeBytes with
            | .ok c => .ok (.ext (decodeKey flag keyBytes).1 c)
            | .error e => .error e
        else .error "proto: malformed ext"
def decodeBranchNode : Nat → Bytes → Except String Node
  | 0, _ => .error "decode: out of fuel"
  | fuel + 1, raw =>
    match decodeBranchCh fuel 16 raw none with
    | .error e => .error e
    | .ok (ch, rest, errState) =>
      match readField rest with
      | none => .error "proto: malformed branch"
      | some (targetBytes, r2) =>
        if r2 = [] then
          match errState with
          | some e => .error e
          | none => .ok (.branch ch (optBytes targetBytes))
        else .error "proto: malformed branch"
/-- Decode `k` child slots.  Mirrors the Go loop exactly: an empty field is
an absent child, a 32-byte field is a hash reference, anything else is
recursively decoded, a failed recursive decode leaves the slot absent and
overwrites the loop's error variable (so a later successful recursive
decode resets it — "last error wins", as in the source). -/
def decodeBranchCh : Nat → Nat → Bytes → Option String →
    Except String (Children × Bytes × Option String)
  | 0, _, _, _ => .error "decode: out of fuel"
  | _ + 1, 0, rest, errState => .ok (.nil, rest, errState)
  | fuel + 1, k + 1, bs, errState =>
    match readField bs with
    | none => .error "proto: malformed branch"
    | some (childBytes, rest) =>
      if childBytes.length = 0 then
        match decodeBranchCh fuel k rest errState with
        | .ok (ch, r, e) => .ok (.consNone ch, r, e)
        | .error e => .error e
      else if childBytes.length = 32 then
        match decodeBranchCh fuel k rest errState with
        | .ok (ch, r, e) => .ok (.consSome (.hashN childBytes) ch, r, e)
        | .error e => .error e
      else
        match decodeA fuel childBytes with
        | .ok c =>
          match decodeBranchCh fuel k rest none with
          | .ok (ch, r, e) => .ok (.consSome c ch, r, e)
          | .error e => .error e
        | .error childErr =>
          match decodeBranchCh fuel k rest (some childErr) with
          | .ok (ch, r, e) => .ok (.consNone ch, r, e)
          | .error e => .error e
end

def decodeNode (bs : Bytes) : Except String Node := decodeA (bs.length + 1) bs

/-! ## Canonical form

`canonN n` is the node that `decodeNode n.Encode` reconstructs for a
well-formed `n`: keys run through the pad/unpad round trip, an empty target
becomes absent, and every child reappears inline when its capped form is
its (short) encoding, and as a hash reference when its capped form is its
hash. -/

/-- The pad/unpad round trip that a leaf or extension key undergoes through
`encodeKey`/`decodeKey`. -/
def keyRound (k : Bytes) : Bytes :=
  let padded : Bytes := if k.length % 2 ≠ 0 then k ++ [0] else k
  let ns := bytesToNibbles (nibblesToBytes padded)
  if k.length % 2 ≠ 0 then ns.dropLast else ns

mutual
def canonN : Node → Node
  | .leaf k v => .leaf (keyRound k) v
  | .ext k c =>
    let cap := Node.Capped c
    .ext (keyRound k) (if cap.length = 32 then .hashN cap else canonN c)
  | .branch ch t => .branch (canonCh ch) (optBytes (t.getD []))
  | .hashN h => .hashN h
def canonCh : Children → Children
  | .nil => .nil
  | .consNone tl => .consNone (canonCh tl)
  | .consSome c tl =>
    let cap := Node.Capped c
    if cap.length = 0 then .consNone (canonCh tl)
    else if cap.length = 32 then .consSome (.hashN cap) (canonCh tl)
    else .consSome (canonN c) (canonCh tl)
end

mutual
/-- Well-formedness of an in-memory node: every hash reference carries a
32-byte hash and every branch has exactly 16 child slots.  Decoded nodes
and the nodes the algorithms build from them satisfy this. -/
def wf32N : Node → Bool
  | .leaf _ _ => true
  | .ext _ c => (match c with | .hashN h => decide (h.length = 32) | _ => true) && wf32N c
  | .branch ch _ => decide (ch.count = 16) && wf32Ch ch
  | .hashN h => decide (h.length = 32)
def wf32Ch : Children → Bool
  | .nil => true
  | .consNone tl => wf32Ch tl
  | .consSome c tl =>
    (match c with | .hashN h => decide (h.length = 32) | _ => true) && wf32N c && wf32Ch tl
end

/-! ## Update log (`logs.go`) -/

def alookup : List (Bytes × Bytes) → Bytes → Option Bytes
  | [], _ => none
  | (k, v) :: rest, key => if k = key then some v else alookup rest key

def aremove : List (Bytes × Bytes) → Bytes → List (Bytes × Bytes)
  | [], _ => []
  | (k, v) :: rest, key => if k = key then aremove rest key else (k, v) :: aremove rest key

def aset (m : List (Bytes × Bytes)) (key value : Bytes) : List (Bytes × Bytes) :=
  aremove m key ++ [(key, value)]

/-- updateLog record all operations for immutable trie:
cached caches key/value fetched from the underlying db, inserted records
all inserted key/value, deleted records all deleted keys.  Go's unordered
hash maps become association lists with unique keys; all claims about them
are stated through `alookup`. -/
structure UpdateLog where
  cached : List (Bytes × Bytes)
  inserted : List (Bytes × Bytes)
  deleted : List (Bytes × Bytes)
deriving DecidableEq, Repr

def newUpdateLog : UpdateLog := ⟨[], [], []⟩

def UpdateLog.cache (log : UpdateLog) (key value : Bytes) : UpdateLog :=
  { log with cached := aset log.cached key value }

def UpdateLog.insert (log : UpdateLog) (key value : Bytes) : UpdateLog :=
  ⟨aremove log.cached key, aset log.inserted key value, aremove log.deleted key⟩

def UpdateLog.delete (log : UpdateLog) (key : Bytes) : UpdateLog :=
  ⟨aremove log.cached key, aremove log.inserted key, aset log.deleted key []⟩

def UpdateLog.copy (log : UpdateLog) : UpdateLog := log

/-- merge applies one operation result to the log: replaced nodes whose
capped form is their hash (or which were the old root) are marked deleted,
created nodes whose capped form is their hash (or equals the new root's
capped form, `EmptyHash` when there is no new root) are recorded inserted. -/
def UpdateLog.merge (log : UpdateLog) (oldRootHash : Bytes) (newRootNode : Option Node)
    (deleted inserted : List Node) : UpdateLog :=
  let l1 := deleted.foldl
    (fun l n => if (Node.Capped n).length = 32 ∨ Node.Hash n = oldRootHash
      then l.delete (Node.Hash n) else l) log
  inserted.foldl
    (fun l n =>
      let newRootCapped : Bytes :=
        match newRootNode with
        | none => EmptyHash
        | some r => Node.Capped r
      if (Node.Capped n).length = 32 ∨ Node.Capped n = newRootCapped
      then l.insert (Node.Hash n) (Node.Encode n) else l) l1

/-- insertResult record all deleted and inserted nodes of one `Trie.insert` -/
structure InsertResult where
  newNode : Node
  inserted : List Node
  deleted : List Node
deriving Repr

def newInsertResult (newNode : Node) : InsertResult := ⟨newNode, [], []⟩

def InsertResult.insert (r : InsertResult) (n : Option Node) : InsertResult :=
  match n with
  | none => r
  | some m => { r with inserted := r.inserted ++ [m] }

def InsertResult.delete (r : InsertResult) (n : Option Node) : InsertResult :=
  match n with
  | none => r
  | some m => { r with deleted := r.deleted ++ [m] }

/-- deleteResult record all deleted and inserted nodes of one `Trie.delete`;
hasChanged is false when the deleted key is not in the trie -/
structure DeleteResult where
  newNode : Option Node
  inserted : List Node
  deleted : List Node
  hasChanged : Bool
deriving Repr

def newDeleteResult (newNode : Option Node) (hasChanged : Bool) : DeleteResult :=
  ⟨newNode, [], [], hasChanged⟩

def DeleteResult.insert (r : DeleteResult) (n : Option Node) : DeleteResult :=
  match n with
  | none => r
  | some m => { r with inserted := r.inserted ++ [m] }

def DeleteResult.delete (r : DeleteResult) (n : Option Node) : DeleteResult :=
  match n with
  | none => r
  | some m => { r with deleted := r.deleted ++ [m] }

def mergeFromInsertResult (log : UpdateLog) (oldRootHash : Bytes) (result : InsertResult) :
    UpdateLog :=
  (log.copy).merge oldRootHash (some result.newNode) result.deleted result.inserted

def mergeFromDeleteResult (log : UpdateLog) (oldRootHash : Bytes) (result : DeleteResult) :
    UpdateLog :=
  (log.copy).merge oldRootHash result.newNode result.deleted result.inserted

/-! ## The trie (`trie.go`) -/

abbrev Store := List (Bytes × Bytes)

/-- The user-facing immutable handle; the shared backing store is passed to
every operation separately. -/
structure Trie where
  rootHash : Bytes
  log : UpdateLog
deriving DecidableEq, Repr

def NewTrie (rootHash : Bytes) : Trie := ⟨rootHash, newUpdateLog⟩

/-- StateRoot return the rootHash of the trie -/
def Trie.StateRoot (t : Trie) : Bytes := t.rootHash

/-- Result of an operation that can exhaust its fuel (a Go execution that
does not terminate) or panic. -/
inductive PRes (α : Type) : Type where
  | timeout
  | panicked (msg : String)
  | ok (a : α)
deriving DecidableEq, Repr

def PRes.bind : PRes α → (α → PRes β) → PRes β
  | .timeout, _ => .timeout
  | .panicked m, _ => .panicked m
  | .ok a, f => f a

/-- Result of hash resolution: an error return, a panic, or the node
together with the (possibly cache-extended) log. -/
inductive RRes : Type where
  | errR (msg : String)
  | panicked (msg : String)
  | found (n : Node) (log : UpdateLog)
deriving Repr

/-- fetch node from underlying db, and cache raw data; a store miss or an
undecodable store entry is a panic in the source. -/
def fetchFromDB (db : Store) (log : UpdateLog) (hash : Bytes) : RRes :=
  match alookup db hash with
  | none => .panicked "fetchFromDB: get from db failed"
  | some encoded =>
    if encoded.length = 0 then .panicked "fetchFromDB: get from db failed"
    else
      match decodeNode encoded with
      | .error _ => .panicked "fetchFromDB: decodeNode failed"
      | .ok n => .found n (log.cache hash encoded)

def resolveHash (db : Store) (log : UpdateLog) (hash : Bytes) : RRes :=
  if (alookup log.deleted hash).isSome then
    .errR "trie is inconsistent, node has been deleted"
  else
    match alookup log.inserted hash with
    | some inserted =>
      match decodeNode inserted with
      | .ok n => .found n log
      | .error e => .errR e
    | none =>
      match alookup log.cached hash with
      | some cached =>
        match decodeNode cached with
        | .ok n => .found n log
        | .error e => .errR e
      | none => fetchFromDB db log hash

def tryGet (db : Store) : Nat → UpdateLog → Node → Bytes → PRes (Bytes × UpdateLog)
  | 0, _, _, _ => .timeout
  | fuel + 1, log, startNode, searchKey =>
    match startNode with
    | .leaf k v => .ok (if searchKey = k then v else [], log)
    | .ext k c =>
      if searchKey.length < k.length then .ok ([], log)
      else if searchKey.take k.length = k then tryGet db fuel log c (searchKey.drop k.length)
      else .ok ([], log)
    | .branch ch t =>
      match searchKey with
      | [] => .ok (t.getD [], log)
      | pos :: rest =>
        match ch.get pos with
        | none => .ok ([], log)
        | some c => tryGet db fuel log c rest
    | .hashN h =>
      match resolveHash db log h with
      | .errR _ => .ok ([], log)
      | .panicked m => .panicked m
      | .found n log1 => tryGet db fuel log1 n searchKey

/-- Get returns the value for key stored in the trie (`[]` plays Go's `nil`
"absent" result); the returned log is the receiver's log after the read
(reads cache store fetches into the receiver's log). -/
def Trie.Get (db : Store) (fuel : Nat) (t : Trie) (key : Bytes) : PRes (Bytes × UpdateLog) :=
  if t.rootHash = EmptyHash then .ok ([], t.log)
  else
    match resolveHash db t.log t.rootHash with
    | .errR _ => .ok ([], t.log)
    | .panicked m => .panicked m
    | .found rootNode log1 => tryGet db fuel log1 rootNode (bytesToNibbles key)

mutual
def Trie.insert (db : Store) : Nat → UpdateLog → Node → Bytes → Bytes →
    PRes (InsertResult × UpdateLog)
  | 0, _, _, _, _ => .timeout
  | fuel + 1, log, startNode, searchKey, value =>
    match startNode with
    | .leaf k v => insertToLeaf db fuel log k v searchKey value
    | .ext k c => insertToExt db fuel log k c searchKey value
    | .branch ch t => insertToBranch db fuel log ch t searchKey value
    | .hashN h =>
      match resolveHash db log h with
      | .found newNode log1 => Trie.insert db fuel log1 newNode searchKey value
      | .panicked m => .panicked m
      | .errR _ => .panicked "insert: can't resolve hashNode"
def insertToLeaf (db : Store) : Nat → UpdateLog → Bytes → Bytes → Bytes → Bytes →
    PRes (InsertResult × UpdateLog)
  | 0, _, _, _, _, _ => .timeout
  | fuel + 1, log, leafKey, leafValue, searchKey, value =>
    let ml := matchingLength searchKey leafKey
    if ml = searchKey.length ∧ ml = leafKey.length then
      let newLeaf := Node.leaf searchKey value
      .ok ((((newInsertResult newLeaf).delete (some (.leaf leafKey leafValue))).insert
        (some newLeaf)), log)
    else if ml = 0 then
      let maybeLeaf : Option Node :=
        match leafKey with
        | [] => none
        | _ :: krest => some (.leaf krest leafValue)
      let tempBranch : Node :=
        match leafKey with
        | [] => branchWithTarget leafValue
        | k0 :: krest => branchWithChild k0 (.leaf krest leafValue) none
      (Trie.insert db fuel log tempBranch searchKey value).bind fun p =>
        .ok (((p.1.delete (some (.leaf leafKey leafValue))).insert maybeLeaf), p.2)
    else
      let tempNode : Node :=
        if ml = leafKey.length then branchWithTarget leafValue
        else .leaf (leafKey.drop ml) leafValue
      (Trie.insert db fuel log tempNode (searchKey.drop ml) value).bind fun p =>
        let tempExtNode := Node.ext (leafKey.take ml) p.1.newNode
        .ok (((({ p.1 with newNode := tempExtNode }).delete
          (some (.leaf leafKey leafValue))).insert (some tempExtNode)), p.2)
def insertToExt (db : Store) : Nat → UpdateLog → Bytes → Node → Bytes → Bytes →
    PRes (InsertResult × UpdateLog)
  | 0, _, _, _, _, _ => .timeout
  | fuel + 1, log, extKey, extChild, searchKey, value =>
    let ml := matchingLength searchKey extKey
    if ml = 0 then
      match extKey with
      | [] => .panicked "runtime error: index out of range"
      | k0 :: krest =>
        let maybeChild : Option Node :=
          match krest with
          | [] => none
          | _ => some (.ext krest extChild)
        let tempBranch : Node :=
          match krest with
          | [] => branchWithChild k0 extChild none
          | _ => branchWithChild k0 (.ext krest extChild) none
        (Trie.insert db fuel log tempBranch searchKey value).bind fun p =>
          .ok (((p.1.insert maybeChild).delete (some (.ext extKey extChild))), p.2)
    else if ml = extKey.length then
      (Trie.insert db fuel log extChild (searchKey.drop ml) value).bind fun p =>
        let newExt := Node.ext extKey p.1.newNode
        .ok (((({ p.1 with newNode := newExt }).insert (some newExt)).delete
          (some (.ext extKey extChild))), p.2)
    else
      let tempExt := Node.ext (extKey.drop ml) extChild
      (Trie.insert db fuel log tempExt (searchKey.drop ml) value).bind fun p =>
        let newExt := Node.ext (extKey.take ml) p.1.newNode
        .ok (((({ p.1 with newNode := newExt }).insert (some newExt)).delete
          (some (.ext extKey extChild))), p.2)
def insertToBranch (db : Store) : Nat → UpdateLog → Children → Option Bytes → Bytes → Bytes →
    PRes (InsertResult × UpdateLog)
  | 0, _, _, _, _, _ => .timeout
  | fuel + 1, log, ch, t, searchKey, value =>
    match searchKey with
    | [] =>
      let newBranch := updateTarget ch value
      .ok ((((newInsertResult newBranch).insert (some newBranch)).delete
        (some (.branch ch t))), log)
    | pos :: rest =>
      match ch.get pos with
      | some child =>
        (Trie.insert db fuel log child rest value).bind fun p =>
          let newBranch := updateChild ch t pos (some p.1.newNode)
          .ok (((({ p.1 with newNode := newBranch }).insert (some newBranch)).delete
            (some (.branch ch t))), p.2)
      | none =>
        let newLeaf := Node.leaf rest value
        let newBranch := updateChild ch t pos (some newLeaf)
        .ok (((((newInsertResult newBranch).insert (some newBranch)).insert
          (some newLeaf)).delete (some (.branch ch t))), log)
end

/-- Insert insert key and value to trie, return a new trie (and the
receiver's log after the operation: the receiver's cache is extended by the
store fetches the operation performed); the old trie is otherwise
unchanged. -/
def Trie.Insert (db : Store) (fuel : Nat) (t : Trie) (key value : Bytes) :
    PRes (Trie × UpdateLog) :=
  let searchKey := bytesToNibbles key
  if t.rootHash = EmptyHash then
    let newRootNode := Node.leaf searchKey value
    let result := (newInsertResult newRootNode).insert (some newRootNode)
    .ok (⟨Node.Hash newRootNode, mergeFromInsertResult t.log t.rootHash result⟩, t.log)
  else
    match resolveHash db t.log t.rootHash with
    | .errR _ => .panicked "Insert: can't resolve rootHash"
    | .panicked m => .panicked m
    | .found rootNode log1 =>
      (Trie.insert db fuel log1 rootNode searchKey value).bind fun p =>
        .ok (⟨Node.Hash p.1.newNode, mergeFromInsertResult p.2 t.rootHash p.1⟩, p.2)

def getNodeFrom : List Node → Bytes → Option Node
  | [], _ => none
  | n :: rest, hash => if Node.Hash n = hash then some n else getNodeFrom rest hash

/-- The second half of `tryFixExt`: compact the extension with its resolved
child. -/
def fixExtWith (extKey : Bytes) (extChild : Node) (child : Node) (log : UpdateLog) :
    PRes (Node × UpdateLog) :=
  match child with
  | .ext k2 c2 => .ok (.ext (concat extKey k2) c2, log)
  | .leaf k2 v2 => .ok (.leaf (concat extKey k2) v2, log)
  | _ => .ok (.ext extKey extChild, log)

def deleteFromLeaf (log : UpdateLog) (leafKey leafValue searchKey : Bytes) :
    PRes (DeleteResult × UpdateLog) :=
  if searchKey = leafKey then
    .ok ((newDeleteResult none true).delete (some (.leaf leafKey leafValue)), log)
  else .ok (newDeleteResult none false, log)

mutual
def Trie.delete (db : Store) : Nat → UpdateLog → Node → Bytes → PRes (DeleteResult × UpdateLog)
  | 0, _, _, _ => .timeout
  | fuel + 1, log, startNode, searchKey =>
    match startNode with
    | .leaf k v => deleteFromLeaf log k v searchKey
    | .ext k c => deleteFromExt db fuel log k c searchKey
    | .branch ch t => deleteFromBranch db fuel log ch t searchKey
    | .hashN h =>
      match resolveHash db log h with
      | .found newNode log1 => Trie.delete db fuel log1 newNode searchKey
      | .panicked m => .panicked m
      | .errR _ => .panicked "delete: can't resolve hashNode"
def deleteFromExt (db : Store) : Nat → UpdateLog → Bytes → Node → Bytes →
    PRes (DeleteResult × UpdateLog)
  | 0, _, _, _, _ => .timeout
  | fuel + 1, log, extKey, extChild, searchKey =>
    let ml := matchingLength extKey searchKey
    if ml ≠ extKey.length then .ok (newDeleteResult none false, log)
    else
      (Trie.delete db fuel log extChild (searchKey.drop ml)).bind fun p =>
        if !p.1.hasChanged then .ok p
        else
          match p.1.newNode with
          | none => .panicked "runtime error: invalid memory address or nil pointer dereference"
          | some newChild =>
            let toFixed := Node.ext extKey newChild
            (tryFix db fuel p.2 toFixed p.1.inserted).bind fun q =>
              .ok (((({ p.1 with newNode := some q.1 }).insert (some q.1)).delete
                (some (.ext extKey extChild))), q.2)
def deleteFromBranch (db : Store) : Nat → UpdateLog → Children → Option Bytes → Bytes →
    PRes (DeleteResult × UpdateLog)
  | 0, _, _, _, _ => .timeout
  | fuel + 1, log, ch, t, searchKey =>
    match searchKey with
    | [] =>
      if hasTarget t then
        (tryFix db fuel log (branchWithChildren ch) []).bind fun q =>
          .ok ((((newDeleteResult (some q.1) true).insert (some q.1)).delete
            (some (.branch ch t))), q.2)
      else .ok (newDeleteResult none false, log)
    | childIndex :: rest =>
      match ch.get childIndex with
      | none => .ok (newDeleteResult none false, log)
      | some child =>
        (Trie.delete db fuel log child rest).bind fun p =>
          if !p.1.hasChanged then .ok p
          else
            let tempBranch := updateChild ch t childIndex p.1.newNode
            (tryFix db fuel p.2 tempBranch p.1.inserted).bind fun q =>
              .ok (((({ p.1 with newNode := some q.1 }).insert (some q.1)).delete
                (some (.branch ch t))), q.2)
def tryFix (db : Store) : Nat → UpdateLog → Node → List Node → PRes (Node × UpdateLog)
  | 0, _, _, _ => .timeout
  | fuel + 1, log, startNode, updates =>
    match startNode with
    | .branch ch t => tryFixBranch db fuel log ch t updates
    | .ext k c => tryFixExt db fuel log k c updates
    | n => .ok (n, log)
def tryFixBranch (db : Store) : Nat → UpdateLog → Children → Option Bytes → List Node →
    PRes (Node × UpdateLog)
  | 0, _, _, _, _ => .timeout
  | fuel + 1, log, ch, t, updates =>
    let index := childrenIndex ch
    if index.length = 0 ∧ hasTarget t then .ok (.leaf [] (t.getD []), log)
    else if index.length = 1 ∧ ¬hasTarget t then
      match index with
      | idx :: _ =>
        match ch.get idx with
        | some childN => tryFix db fuel log (.ext [idx] childN) updates
        | none => .panicked "tryFixBranch: unreachable"
      | [] => .panicked "tryFixBranch: unreachable"
    else if index.length = 0 ∧ ¬hasTarget t then
      .panicked "tryFixBranch: invalid branch state, no children and no target"
    else .ok (.branch ch t, log)
def tryFixExt (db : Store) : Nat → UpdateLog → Bytes → Node → List Node →
    PRes (Node × UpdateLog)
  | 0, _, _, _, _ => .timeout
  | _ + 1, log, extKey, extChild, updates =>
    match extChild with
    | .hashN h =>
      match getNodeFrom updates h with
      | some c => fixExtWith extKey extChild c log
      | none =>
        match resolveHash db log h with
        | .found c log1 => fixExtWith extKey extChild c log1
        | .panicked m => .panicked m
        | .errR _ =>
          .panicked "tryFixExt: can't resolve child, maybe because of can't get node from updates"
    | c => fixExtWith extKey extChild c log
end

/-- Delete delete key and value from trie, return a new trie (plus the
receiver's log after the operation), old trie is unchanged -/
def Trie.Delete (db : Store) (fuel : Nat) (t : Trie) (key : Bytes) : PRes (Trie × UpdateLog) :=
  if t.rootHash = EmptyHash then .ok (t, t.log)
  else
    let searchKey := bytesToNibbles key
    match resolveHash db t.log t.rootHash with
    | .errR _ => .panicked "Delete: can't resolve rootHash"
    | .panicked m => .panicked m
    | .found rootNode log1 =>
      (Trie.delete db fuel log1 rootNode searchKey).bind fun p =>
        if !p.1.hasChanged then .ok (⟨t.rootHash, p.2⟩, p.2)
        else
          let newRootHash : Bytes :=
            match p.1.newNode with
            | none => EmptyHash
            | some n => Node.Hash n
          .ok (⟨newRootHash, mergeFromDeleteResult p.2 t.rootHash p.1⟩, p.2)

/-! ## Persistence -/

inductive BatchOp : Type where
  | put (key value : Bytes)
  | del (key : Bytes)
deriving DecidableEq, Repr

/-- CommitToBatch puts every inserted entry and deletes every deleted key. -/
def Trie.CommitToBatch (t : Trie) : List BatchOp :=
  t.log.inserted.map (fun p => .put p.1 p.2) ++ t.log.deleted.map (fun p => .del p.1)

def applyBatch (db : Store) : List BatchOp → Store
  | [] => db
  | .put k v :: rest => applyBatch (aset db k v) rest
  | .del k :: rest => applyBatch (aremove db k) rest

/-- Persist all logs to underlying db -/
def Trie.Persist (db : Store) (t : Trie) : Store := applyBatch db t.CommitToBatch

/-! ## Injectivity of the digest -/

theorem encNatA_zero (f acc : Nat) : encNatA f 0 acc = acc := by
  cases f <;> simp [encNatA]

theorem encNatA_stable : ∀ f g m acc, m ≤ f → m ≤ g → encNatA f m acc = encNatA g m acc := by
  intro f
  induction f with
  | zero => intro g m acc hf _; interval_cases m; rw [encNatA_zero, encNatA_zero]
  | succ f ih =>
    intro g m acc hf hg
    rcases Nat.eq_zero_or_pos m with hm | hm
    · subst hm; rw [encNatA_zero, encNatA_zero]
    · obtain ⟨g', rfl⟩ : ∃ g', g = g' + 1 := ⟨g - 1, by omega⟩
      have hdiv : m / 2 < m := Nat.div_lt_self hm (by omega)
      simp only [encNatA, if_neg (by omega : ¬ m = 0)]
      rw [ih g' (m / 2) acc (by omega) (by omega)]

theorem encNat_eq (m acc : Nat) (hm : 0 < m) :
    encNat m acc = encNat (m / 2) acc * 4 + m % 2 := by
  obtain ⟨k, rfl⟩ : ∃ k, m = k + 1 := ⟨m - 1, by omega⟩
  show encNatA (k + 1) (k + 1) acc = _
  simp only [encNatA, if_neg (by omega : ¬ k + 1 = 0)]
  rw [encNatA_stable k ((k + 1) / 2) ((k + 1) / 2) acc (by omega) (by omega)]
  rfl

theorem encNat_ge_acc (m acc : Nat) : acc ≤ encNat m acc := by
  induction m using Nat.strong_induction_on with
  | _ m ih =>
    rcases Nat.eq_zero_or_pos m with hm | hm
    · subst hm; simp [encNat, encNatA]
    · rw [encNat_eq m acc hm]
      have := ih (m / 2) (Nat.div_lt_self hm (by omega))
      omega

theorem encNat_ge_self (m acc : Nat) (hacc : 1 ≤ acc) : m ≤ encNat m acc := by
  induction m using Nat.strong_induction_on with
  | _ m ih =>
    rcases Nat.eq_zero_or_pos m with hm | hm
    · omega
    · rw [encNat_eq m acc hm]
      have h1 := ih (m / 2) (Nat.div_lt_self hm (by omega))
      have h2 := encNat_ge_acc (m / 2) acc
      omega

theorem decNatA_round : ∀ f m acc, m ≤ f → acc % 4 = 2 → decNatA f (encNat m acc) = (m, acc) := by
  intro f
  induction f with
  | zero =>
    intro m acc hf hacc
    interval_cases m
    have : encNat 0 acc = acc := by simp [encNat, encNatA]
    rw [this]
    have : 0 < acc := by omega
    simp [decNatA]
  | succ f ih =>
    intro m acc hf hacc
    rcases Nat.eq_zero_or_pos m with hm | hm
    · subst hm
      have he : encNat 0 acc = acc := by simp [encNat, encNatA]
      rw [he]
      simp only [decNatA]
      rw [if_pos (by omega)]
    · rw [encNat_eq m acc hm]
      have hE := encNat_ge_acc (m / 2) acc
      have hx4 : (encNat (m / 2) acc * 4 + m % 2) % 4 = m % 2 := by omega
      have hxpos : encNat (m / 2) acc * 4 + m % 2 ≠ 0 := by
        have : 2 ≤ acc := by omega
        omega
      simp only [decNatA]
      rw [if_neg (by omega)]
      have hdivx : (encNat (m / 2) acc * 4 + m % 2) / 4 = encNat (m / 2) acc := by
        rw [Nat.mul_comm, Nat.mul_add_div (by norm_num)]
        have : m % 2 / 4 = 0 := Nat.div_eq_of_lt (by omega)
        omega
      rw [hdivx, ih (m / 2) acc (by omega) hacc]
      simp only [Prod.mk.injEq]
      refine ⟨by omega, trivial⟩

theorem encList_pos (l : List Nat) : 1 ≤ encList l := by
  cases l with
  | nil => simp [encList]
  | cons n l =>
    have := encNat_ge_acc n (encList l * 4 + 2)
    simp only [encList]
    omega

theorem decListA_round : ∀ l f, l.length < f → decListA f (encList l) = some l := by
  intro l
  induction l with
  | nil =>
    intro f hf
    obtain ⟨f', rfl⟩ : ∃ f', f = f' + 1 := ⟨f - 1, by omega⟩
    simp [decListA, encList]
  | cons n l ih =>
    intro f hf
    obtain ⟨f', rfl⟩ : ∃ f', f = f' + 1 := ⟨f - 1, by omega⟩
    have hacc : 1 ≤ encList l := encList_pos l
    have hge : encList l * 4 + 2 ≤ encNat n (encList l * 4 + 2) :=
      encNat_ge_acc n (encList l * 4 + 2)
    have hx : 1 < encList (n :: l) := by
      simp only [encList]; omega
    have hself : n ≤ encNat n (encList l * 4 + 2) :=
      encNat_ge_self n (encList l * 4 + 2) (by omega)
    simp only [decListA, encList]
    rw [if_neg (by simp only [encList] at hx; omega)]
    rw [decNatA_round (encNat n (encList l * 4 + 2)) n (encList l * 4 + 2) hself (by omega)]
    have hdiv : (encList l * 4 + 2) / 4 = encList l := by omega
    simp only [hdiv]
    rw [ih f' (by simpa using hf)]

theorem encList_injective {a b : List Nat} (h : encList a = encList b) : a = b := by
  have ha := decListA_round a (a.length + b.length + 1) (by omega)
  have hb := decListA_round b (a.length + b.length + 1) (by omega)
  rw [h] at ha
  exact Option.some_inj.mp (ha.symm.trans hb)

theorem keccak256_injective {a b : List Nat} (h : keccak256 a = keccak256 b) : a = b := by
  simp only [keccak256, List.cons.injEq] at h
  exact encList_injective h.1

theorem keccak256_length (bs : List Nat) : (keccak256 bs).length = 32 := by
  simp [keccak256]

/-! ## Decode is a left inverse of encode -/

def Node.isHash : Node → Bool
  | .hashN _ => true
  | _ => false

theorem getLastD_concat_eq (l : List Nat) (a : Nat) : (l ++ [a]).getLastD 0 = a := by
  induction l with
  | nil => rfl
  | cons x xs ih => cases xs <;> simp_all

theorem dropLast_concat_eq (l : List Nat) (a : Nat) : (l ++ [a]).dropLast = l := by
  simp

theorem readField_lenPrefixed (a rest : Bytes) :
    readField (lenPrefixed a ++ rest) = some (a, rest) := by
  simp only [lenPrefixed, List.cons_append, readField]
  rw [if_pos (by simp)]
  simp

theorem encodeKey_flag_mod (k : Bytes) (nodeType : Nat) (hT : nodeType < 16) :
    (encodeKey k nodeType).2 % 16 = nodeType := by
  simp only [encodeKey]
  split <;> omega

theorem decodeKey_encodeKey_fst (k : Bytes) (nodeType : Nat) (hT : nodeType < 16) :
    (decodeKey (encodeKey k nodeType).2 (encodeKey k nodeType).1).1 = keyRound k := by
  simp only [encodeKey, decodeKey, keyRound]
  by_cases h : k.length % 2 ≠ 0 <;> simp [h] <;> omega

theorem encode_ext_eq (k : Bytes) (c : Node) :
    Node.Encode (.ext k c) =
      (lenPrefixed (encodeKey k extType).1 ++ lenPrefixed (Node.Capped c)) ++
        [(encodeKey k extType).2] := by
  cases c <;> rfl

theorem encodeCh_consSome_eq (c : Node) (tl : Children) :
    Node.encodeCh (.consSome c tl) = lenPrefixed (Node.Capped c) ++ Node.encodeCh tl := by
  cases c <;> rfl

theorem encode_leaf_eq (k v : Bytes) :
    Node.Encode (.leaf k v) =
      (lenPrefixed (encodeKey k leafType).1 ++ lenPrefixed v) ++ [(encodeKey k leafType).2] := by
  rfl

theorem encode_branch_eq (ch : Children) (t : Option Bytes) :
    Node.Encode (.branch ch t) =
      (Node.encodeCh ch ++ lenPrefixed (t.getD [])) ++ [branchType] := by
  simp [Node.Encode, List.append_assoc]

theorem encode_length_pos (n : Node) (hn : n.isHash = false) : 2 ≤ (Node.Encode n).length := by
  match n with
  | .leaf k v => rw [encode_leaf_eq]; simp [lenPrefixed]; omega
  | .ext k c => rw [encode_ext_eq]; simp [lenPrefixed]; omega
  | .branch ch t => rw [encode_branch_eq]; simp [lenPrefixed]; omega
  | .hashN h => simp [Node.isHash] at hn

theorem capped_of_not_hash (n : Node) (hn : n.isHash = false) :
    Node.Capped n = (if (Node.Encode n).length < 32 then Node.Encode n else
      keccak256 (Node.Encode n)) := by
  match n with
  | .leaf _ _ => rfl
  | .ext _ _ => rfl
  | .branch _ _ => rfl
  | .hashN h => simp [Node.isHash] at hn

/-- For a well-formed node, the capped form is either a 32-wide digest or
the (short) encoding itself. -/
theorem capped_cases (n : Node) (hwf : wf32N n = true) :
    ((Node.Capped n).length = 32) ∨
      (n.isHash = false ∧ Node.Capped n = Node.Encode n ∧ (Node.Encode n).length < 32) := by
  have aux : n.isHash = false →
      ((Node.Capped n).length = 32) ∨
        (n.isHash = false ∧ Node.Capped n = Node.Encode n ∧ (Node.Encode n).length < 32) := by
    intro hn
    rw [capped_of_not_hash n hn]
    split
    · right
      exact ⟨hn, rfl, by assumption⟩
    · left; simp [keccak256_length]
  match n with
  | .hashN h =>
    simp only [wf32N, decide_eq_true_eq] at hwf
    left; simp [Node.Capped, hwf]
  | .leaf k v => exact aux rfl
  | .ext k c => exact aux rfl
  | .branch ch t => exact aux rfl

theorem capped_length_ne_zero (n : Node) (hwf : wf32N n = true) :
    (Node.Capped n).length ≠ 0 := by
  rcases capped_cases n hwf with h | ⟨hn, he, _⟩
  · omega
  · rw [he]
    have := encode_length_pos n hn
    omega

theorem decodeA_concat (g : Nat) (raw : Bytes) (flag : Nat) (hraw : 1 ≤ raw.length) :
    decodeA (g + 1) (raw ++ [flag]) =
      (if flag % 16 = leafType then decodeLeafNode raw flag
       else if flag % 16 = extType then decodeExtNode g raw flag
       else if flag % 16 = branchType then decodeBranchNode g raw
       else .error "unknown node type") := by
  simp only [decodeA]
  rw [if_neg (by simp only [List.length_append, List.length_cons, List.length_nil]; omega)]
  rw [getLastD_concat_eq, dropLast_concat_eq]

theorem readField_lenPrefixed_nil (a : Bytes) : readField (lenPrefixed a) = some (a, []) := by
  have := readField_lenPrefixed a []
  simpa using this

theorem readField_zero_cons (rest : Bytes) : readField (0 :: rest) = some ([], rest) := by
  simp [readField]

mutual
theorem decodeA_Encode : ∀ (n : Node), n.isHash = false → wf32N n = true →
    ∀ f, (Node.Encode n).length < f → decodeA f (Node.Encode n) = .ok (canonN n)
  | .leaf k v, _, _, f, hf => by
    rw [encode_leaf_eq] at hf ⊢
    obtain ⟨g, rfl⟩ : ∃ g, f = g + 1 := ⟨f - 1, by omega⟩
    rw [decodeA_concat g _ _ (by simp [lenPrefixed])]
    rw [if_pos (encodeKey_flag_mod k leafType (by norm_num [leafType]))]
    simp only [decodeLeafNode, readField_lenPrefixed, readField_lenPrefixed_nil]
    rw [if_pos trivial]
    rw [decodeKey_encodeKey_fst k leafType (by norm_num [leafType])]
    rfl
  | .ext k c, _, hwf, f, hf => by
    simp only [wf32N, Bool.and_eq_true] at hwf
    rw [encode_ext_eq] at hf ⊢
    obtain ⟨g, rfl⟩ : ∃ g, f = g + 1 := ⟨f - 1, by omega⟩
    rw [decodeA_concat g _ _ (by simp [lenPrefixed])]
    rw [if_neg (by
      rw [encodeKey_flag_mod k extType (by norm_num [extType])]
      norm_num [leafType, extType])]
    rw [if_pos (encodeKey_flag_mod k extType (by norm_num [extType]))]
    obtain ⟨g', rfl⟩ : ∃ g', g = g' + 1 :=
      ⟨g - 1, by simp only [List.length_append, List.length_cons, lenPrefixed,
        List.length_nil] at hf; omega⟩
    simp only [decodeExtNode, readField_lenPrefixed, readField_lenPrefixed_nil]
    rw [if_pos trivial]
    rw [decodeKey_encodeKey_fst k extType (by norm_num [extType])]
    rcases capped_cases c hwf.2 with hcap | ⟨hch, hce, hcl⟩
    · rw [if_pos hcap]
      simp only [canonN]
      rw [if_pos hcap]
    · have hlen := congrArg List.length hce
      rw [if_neg (by omega)]
      rw [hce]
      rw [decodeA_Encode c hch hwf.2 g'
        (by simp only [List.length_append, List.length_cons, lenPrefixed,
          List.length_nil] at hf; omega)]
      simp only [canonN]
      rw [if_neg (by omega)]
  | .branch ch t, _, hwf, f, hf => by
    simp only [wf32N, Bool.and_eq_true, decide_eq_true_eq] at hwf
    rw [encode_branch_eq] at hf ⊢
    obtain ⟨g, rfl⟩ : ∃ g, f = g + 1 := ⟨f - 1, by omega⟩
    rw [decodeA_concat g _ _
      (by simp only [List.length_append, List.length_cons, lenPrefixed, List.length_nil]; omega)]
    rw [if_neg (by norm_num [leafType, branchType]),
      if_neg (by norm_num [extType, branchType]),
      if_pos (by norm_num [branchType])]
    obtain ⟨g', rfl⟩ : ∃ g', g = g' + 1 :=
      ⟨g - 1, by simp only [List.length_append, List.length_cons, lenPrefixed,
        List.length_nil] at hf; omega⟩
    simp only [decodeBranchNode]
    rw [← hwf.1]
    rw [decodeBranchCh_encodeCh ch hwf.2 g' (lenPrefixed (t.getD []))
      (by
        simp only [List.length_append, List.length_cons, lenPrefixed, List.length_nil] at hf ⊢
        omega)
      (by simp [lenPrefixed])]
    simp only [readField_lenPrefixed_nil]
    rw [if_pos trivial]
    rfl
  | .hashN h, hih, _, _, _ => by simp [Node.isHash] at hih
theorem decodeBranchCh_encodeCh : ∀ (ch : Children), wf32Ch ch = true →
    ∀ (f : Nat) (suffix : Bytes), (Node.encodeCh ch ++ suffix).length ≤ f →
    0 < suffix.length →
    decodeBranchCh f ch.count (Node.encodeCh ch ++ suffix) none = .ok (canonCh ch, suffix, none)
  | .nil, _, f, suffix, hf, hs => by
    obtain ⟨g, rfl⟩ : ∃ g, f = g + 1 := ⟨f - 1, by simp at hf; omega⟩
    simp [decodeBranchCh, Node.encodeCh, Children.count, canonCh]
  | .consNone tl, hwf, f, suffix, hf, hs => by
    rw [wf32Ch] at hwf
    simp only [Node.encodeCh, Children.count, canonCh] at hf ⊢
    obtain ⟨g, rfl⟩ : ∃ g, f = g + 1 :=
      ⟨f - 1, by simp only [List.length_append, List.length_cons, lenPrefixed,
        List.length_nil] at hf; omega⟩
    simp only [decodeBranchCh, lenPrefixed, List.length_nil, List.nil_append, List.cons_append,
      readField_zero_cons]
    rw [if_pos trivial]
    rw [decodeBranchCh_encodeCh tl hwf g suffix
      (by simp only [List.length_append, List.length_cons, List.length_nil,
        lenPrefixed] at hf ⊢; omega) hs]
  | .consSome c tl, hwf, f, suffix, hf, hs => by
    simp only [wf32Ch, Bool.and_eq_true] at hwf
    rw [encodeCh_consSome_eq] at hf ⊢
    simp only [Children.count, canonCh]
    obtain ⟨g, rfl⟩ : ∃ g, f = g + 1 :=
      ⟨f - 1, by simp only [List.length_append, List.length_cons, lenPrefixed,
        List.length_nil] at hf; omega⟩
    rw [List.append_assoc]
    simp only [decodeBranchCh, readField_lenPrefixed]
    have hne := capped_length_ne_zero c hwf.1.2
    rw [if_neg hne]
    rcases capped_cases c hwf.1.2 with hcap | ⟨hch, hce, hcl⟩
    · rw [if_pos hcap]
      rw [decodeBranchCh_encodeCh tl hwf.2 g suffix
        (by simp only [List.length_append, List.length_cons, lenPrefixed,
          List.length_nil] at hf ⊢; omega) hs]
      rw [if_neg hne, if_pos hcap]
    · have hlen := congrArg List.length hce
      rw [if_neg (by omega)]
      rw [hce]
      rw [decodeA_Encode c hch hwf.1.2 g
        (by simp only [List.length_append, List.length_cons, lenPrefixed,
          List.length_nil] at hf ⊢; omega)]
      rw [decodeBranchCh_encodeCh tl hwf.2 g suffix
        (by simp only [List.length_append, List.length_cons, lenPrefixed,
          List.length_nil] at hf ⊢; omega) hs]
      rw [if_neg (by omega : ¬ (List.length (Node.Encode c) = 0)),
        if_neg (by omega : ¬ (List.length (Node.Encode c) = 32))]
end

/-- Decoding the canonical serialization of a well-formed non-reference
node reconstructs its canonical form. -/
theorem decodeNode_Encode (n : Node) (hn : n.isHash = false) (hwf : wf32N n = true) :
    decodeNode (Node.Encode n) = .ok (canonN n) := by
  rw [decodeNode]
  exact decodeA_Encode n hn hwf _ (by omega)

/-! ## Association list facts -/

theorem alookup_aremove (m : List (Bytes × Bytes)) (k k' : Bytes) :
    alookup (aremove m k) k' = if k' = k then none else alookup m k' := by
  induction m with
  | nil => simp [aremove, alookup]
  | cons p rest ih =>
    obtain ⟨pk, pv⟩ := p
    by_cases h1 : pk = k <;> by_cases h2 : pk = k' <;> by_cases h3 : k' = k <;>
      simp_all [aremove, alookup]

theorem alookup_aset (m : List (Bytes × Bytes)) (k v k' : Bytes) :
    alookup (aset m k v) k' = if k' = k then some v else alookup m k' := by
  have happ : ∀ (a b : List (Bytes × Bytes)) (q : Bytes),
      alookup (a ++ b) q = ((alookup a q).rec (alookup b q) fun x => some x) := by
    intro a b q
    induction a with
    | nil => simp [alookup]
    | cons p rest ih =>
      obtain ⟨pk, pv⟩ := p
      by_cases h : pk = q <;> simp [alookup, h, ih]
  rw [aset, happ, alookup_aremove]
  by_cases h : k' = k
  · simp [h, alookup]
  · simp only [if_neg h]
    have hr : alookup [(k, v)] k' = none := by
      simp only [alookup]
      rw [if_neg (fun hh => h hh.symm)]
    rw [hr]
    cases alookup m k' <;> simp

theorem decode_ok_length (f : Nat) (bs : Bytes) (n : Node) (h : decodeA f bs = .ok n) :
    2 ≤ bs.length := by
  match f with
  | 0 => simp [decodeA] at h
  | g + 1 =>
    by_contra hlen
    simp only [decodeA] at h
    rw [if_pos (by omega)] at h
    exact absurd h (by simp)

/-! ## Claim theorems: C9, C10 -/

theorem bytesToNibbles_spec (key : Bytes) (hk : ∀ b ∈ key, b < 256) :
    (bytesToNibbles key).length = 2 * key.length ∧
      ∀ n ∈ bytesToNibbles key, n < 16 := by
  induction key with
  | nil => simp [bytesToNibbles]
  | cons b rest ih =>
    have hb : b < 256 := hk b (by simp)
    have ihr := ih (fun x hx => hk x (by simp [hx]))
    refine ⟨by simp [bytesToNibbles, ihr.1]; omega, ?_⟩
    intro n hn
    simp only [bytesToNibbles, List.mem_cons] at hn
    rcases hn with rfl | rfl | hn
    · omega
    · omega
    · exact ihr.2 n hn

/-- C9: for a byte-string key, `bytesToNibbles` produces `2·|key|` nibbles,
each strictly below 16, so a nibble always indexes within a 16-slot branch
child array. -/
theorem C9_nibble_bounds (key : Bytes) (hk : ∀ b ∈ key, b < 256) :
    (bytesToNibbles key).length = 2 * key.length ∧
      (∀ n ∈ bytesToNibbles key, n < 16) ∧
      (∀ n ∈ bytesToNibbles key, ∀ ch : Children, ch.count = 16 → n < ch.count) := by
  obtain ⟨h1, h2⟩ := bytesToNibbles_spec key hk
  exact ⟨h1, h2, fun n hn ch hch => by rw [hch]; exact h2 n hn⟩

/-- C9 witness. -/
theorem C9_nibble_bounds_witness :
    (∀ b ∈ ([0xab, 0xcd] : Bytes), b < 256) ∧
      ((bytesToNibbles [0xab, 0xcd]).length = 2 * ([0xab, 0xcd] : Bytes).length ∧
        (∀ n ∈ bytesToNibbles [0xab, 0xcd], n < 16) ∧
        (∀ n ∈ bytesToNibbles [0xab, 0xcd], ∀ ch : Children, ch.count = 16 → n < ch.count)) :=
  ⟨by decide, C9_nibble_bounds [0xab, 0xcd] (by decide)⟩

/-- C10: a freshly constructed trie carries an empty journal, so committing
or persisting it issues no store operation, and reloading from a root hash
discards any unpersisted journal of a predecessor handle (the new handle's
journal does not depend on the predecessor). -/
theorem C10_newTrie_empty_journal (rootHash : Bytes) (db : Store) :
    (NewTrie rootHash).log = newUpdateLog ∧
      newUpdateLog.cached = [] ∧ newUpdateLog.inserted = [] ∧ newUpdateLog.deleted = [] ∧
      Trie.CommitToBatch (NewTrie rootHash) = [] ∧
      Trie.Persist db (NewTrie rootHash) = db :=
  ⟨rfl, rfl, rfl, rfl, rfl, rfl⟩

/-! ## Claim theorem: C6 -/

/-- C6: `resolveHash` follows exactly the order deleted → inserted → cached
→ backing store, failing on a deleted hash, decoding journal bytes when
present, and caching (then decoding) store bytes otherwise. -/
theorem C6_resolve_order (db : Store) (log : UpdateLog) (h : Bytes) :
    ((alookup log.deleted h).isSome →
      resolveHash db log h = .errR "trie is inconsistent, node has been deleted") ∧
    (∀ bs, alookup log.deleted h = none → alookup log.inserted h = some bs →
      resolveHash db log h =
        (match decodeNode bs with
          | .ok n => .found n log
          | .error e => .errR e)) ∧
    (∀ bs, alookup log.deleted h = none → alookup log.inserted h = none →
      alookup log.cached h = some bs →
      resolveHash db log h =
        (match decodeNode bs with
          | .ok n => .found n log
          | .error e => .errR e)) ∧
    (alookup log.deleted h = none → alookup log.inserted h = none →
      alookup log.cached h = none →
      resolveHash db log h = fetchFromDB db log h ∧
      (∀ bs n, alookup db h = some bs → decodeNode bs = .ok n →
        resolveHash db log h = .found n (log.cache h bs))) := by
  refine ⟨?_, ?_, ?_, ?_⟩
  · intro hd
    simp only [resolveHash]
    rw [if_pos hd]
  · intro bs hd hi
    simp only [resolveHash]
    rw [if_neg (by simp [hd]), hi]
  · intro bs hd hi hc
    simp only [resolveHash]
    rw [if_neg (by simp [hd]), hi, hc]
  · intro hd hi hc
    constructor
    · simp only [resolveHash]
      rw [if_neg (by simp [hd]), hi, hc]
    · intro bs n hdb hdec
      simp only [resolveHash]
      rw [if_neg (by simp [hd]), hi, hc]
      simp only [fetchFromDB, hdb]
      have : 2 ≤ bs.length := decode_ok_length _ bs n hdec
      rw [if_neg (by omega), hdec]

/-- C6 witness: a hash present in the deleted map resolves to the
inconsistency error. -/
theorem C6_resolve_order_witness :
    resolveHash [] ⟨[], [], [([9], [])]⟩ [9]
      = .errR "trie is inconsistent, node has been deleted" :=
  (C6_resolve_order [] ⟨[], [], [([9], [])]⟩ [9]).1 (by decide)

/-! ## Claim theorem: C8 -/

/-- The update logs reachable from a fresh log by the log operations. -/
inductive ReachableLog : UpdateLog → Prop where
  | fresh : ReachableLog newUpdateLog
  | cacheR (l : UpdateLog) (k v : Bytes) : ReachableLog l → ReachableLog (l.cache k v)
  | insertR (l : UpdateLog) (k v : Bytes) : ReachableLog l → ReachableLog (l.insert k v)
  | deleteR (l : UpdateLog) (k : Bytes) : ReachableLog l → ReachableLog (l.delete k)
  | copyR (l : UpdateLog) : ReachableLog l → ReachableLog l.copy
  | mergeR (l : UpdateLog) (oldRootHash : Bytes) (newRootNode : Option Node)
      (dels inss : List Node) :
      ReachableLog l → ReachableLog (l.merge oldRootHash newRootNode dels inss)

/-- No hash is simultaneously a key of the inserted and the deleted map. -/
def LogDisjoint (l : UpdateLog) : Prop :=
  ∀ h : Bytes, (alookup l.inserted h).isSome → alookup l.deleted h = none

theorem logDisjoint_cache (l : UpdateLog) (k v : Bytes) (hl : LogDisjoint l) :
    LogDisjoint (l.cache k v) := fun h hi => hl h hi

theorem logDisjoint_insert (l : UpdateLog) (k v : Bytes) (hl : LogDisjoint l) :
    LogDisjoint (l.insert k v) := by
  intro h hi
  simp only [UpdateLog.insert, alookup_aremove] at hi ⊢
  by_cases hk : h = k
  · simp [hk]
  · simp only [alookup_aset, if_neg hk] at hi
    rw [if_neg hk]
    exact hl h hi

theorem logDisjoint_delete (l : UpdateLog) (k : Bytes) (hl : LogDisjoint l) :
    LogDisjoint (l.delete k) := by
  intro h hi
  simp only [UpdateLog.delete, alookup_aremove, alookup_aset] at hi ⊢
  by_cases hk : h = k
  · simp [hk] at hi
  · rw [if_neg hk] at hi ⊢
    exact hl h hi

theorem logDisjoint_merge (l : UpdateLog) (oldRootHash : Bytes) (newRootNode : Option Node)
    (dels inss : List Node) (hl : LogDisjoint l) :
    LogDisjoint (l.merge oldRootHash newRootNode dels inss) := by
  rw [UpdateLog.merge.eq_def]
  have step1 : ∀ (xs : List Node) (l0 : UpdateLog), LogDisjoint l0 →
      LogDisjoint (xs.foldl (fun l n =>
        if (Node.Capped n).length = 32 ∨ Node.Hash n = oldRootHash
        then l.delete (Node.Hash n) else l) l0) := by
    intro xs
    induction xs with
    | nil => intro l0 h0; exact h0
    | cons n rest ih =>
      intro l0 h0
      simp only [List.foldl_cons]
      apply ih
      split
      · exact logDisjoint_delete _ _ h0
      · exact h0
  have step2 : ∀ (xs : List Node) (l0 : UpdateLog), LogDisjoint l0 →
      LogDisjoint (xs.foldl (fun l n =>
        let newRootCapped : Bytes :=
          match newRootNode with
          | none => EmptyHash
          | some r => Node.Capped r
        if (Node.Capped n).length = 32 ∨ Node.Capped n = newRootCapped
        then l.insert (Node.Hash n) (Node.Encode n) else l) l0) := by
    intro xs
    induction xs with
    | nil => intro l0 h0; exact h0
    | cons n rest ih =>
      intro l0 h0
      simp only [List.foldl_cons]
      apply ih
      split
      · exact logDisjoint_insert _ _ _ h0
      · exact h0
  exact step2 _ _ (step1 _ _ hl)

/-- C8: every update log reachable from a fresh log by cache, insert,
delete, copy and merge operations never holds a hash in both its inserted
and its deleted map — an insert erases a matching deletion and vice
versa. -/
theorem C8_log_disjoint (l : UpdateLog) (hl : ReachableLog l) : LogDisjoint l := by
  induction hl with
  | fresh => intro h hi; simp [newUpdateLog, alookup] at hi
  | cacheR l k v _ ih => exact logDisjoint_cache l k v ih
  | insertR l k v _ ih => exact logDisjoint_insert l k v ih
  | deleteR l k _ ih => exact logDisjoint_delete l k ih
  | copyR l _ ih => exact ih
  | mergeR l orh nrn dels inss _ ih => exact logDisjoint_merge l orh nrn dels inss ih

/-- C8 witness: a log that inserted then deleted then re-inserted a hash is
reachable and disjoint. -/
theorem C8_log_disjoint_witness :
    LogDisjoint (((newUpdateLog.insert [1] [2]).delete [1]).insert [1] [3]) :=
  C8_log_disjoint _ (.insertR _ _ _ (.deleteR _ _ (.insertR _ _ _ .fresh)))

/-! ## Claim theorem: C5 -/

theorem encNat_gt_self (m acc : Nat) (hacc : 2 ≤ acc) : m < encNat m acc := by
  induction m using Nat.strong_induction_on with
  | _ m ih =>
    rcases Nat.eq_zero_or_pos m with hm | hm
    · subst hm
      have : encNat 0 acc = acc := by simp [encNat, encNatA]
      omega
    · rw [encNat_eq m acc hm]
      have h1 := ih (m / 2) (Nat.div_lt_self hm (by omega))
      have h2 := encNat_ge_acc (m / 2) acc
      omega

theorem keccak256_ne_self (h : Bytes) : keccak256 h ≠ h := by
  intro heq
  match h, heq with
  | [], heq => simp [keccak256] at heq
  | x :: rest, heq =>
    have hhead : encList (x :: rest) = x := by
      have := congrArg (fun l => l.headD 0) heq
      simpa [keccak256] using this
    have hacc : 1 ≤ encList rest := encList_pos rest
    have : x < encNat x (encList rest * 4 + 2) := encNat_gt_self x _ (by omega)
    simp only [encList] at hhead
    omega

theorem hash_consistent_not_hash (m : Node)
    (hc : Node.Hash m = keccak256 (Node.Encode m)) : m.isHash = false := by
  match m with
  | .leaf _ _ => rfl
  | .ext _ _ => rfl
  | .branch _ _ => rfl
  | .hashN h =>
    exact absurd (hc.symm : keccak256 (Node.Encode (.hashN h)) = Node.Hash (.hashN h))
      (keccak256_ne_self h)

theorem capped_eq_of_encode_eq (m n : Node) (hm : m.isHash = false) (hn : n.isHash = false)
    (he : Node.Encode m = Node.Encode n) : Node.Capped m = Node.Capped n := by
  rw [capped_of_not_hash m hm, capped_of_not_hash n hn, he]

/-- The recording condition's root reference: the new root's capped form,
`EmptyHash` when the operation removed the root. -/
def newRootCappedOf : Option Node → Bytes
  | none => EmptyHash
  | some r => Node.Capped r

def mergeDelStep (oldRootHash : Bytes) : UpdateLog → Node → UpdateLog :=
  fun l n =>
    if (Node.Capped n).length = 32 ∨ Node.Hash n = oldRootHash
    then l.delete (Node.Hash n) else l

def mergeInsStep (newRootCapped : Bytes) : UpdateLog → Node → UpdateLog :=
  fun l n =>
    if (Node.Capped n).length = 32 ∨ Node.Capped n = newRootCapped
    then l.insert (Node.Hash n) (Node.Encode n) else l

theorem merge_eq (log : UpdateLog) (oldRootHash : Bytes) (newRootNode : Option Node)
    (dels inss : List Node) :
    log.merge oldRootHash newRootNode dels inss =
      inss.foldl (mergeInsStep (newRootCappedOf newRootNode))
        (dels.foldl (mergeDelStep oldRootHash) log) := by
  rcases newRootNode with _ | r <;> rfl

/-- The deletion loop of `merge` never adds to the inserted map. -/
theorem merge_delLoop_inserted_none (oldRootHash : Bytes) (xs : List Node) (l0 : UpdateLog)
    (H : Bytes) (h0 : alookup l0.inserted H = none) :
    alookup (xs.foldl (mergeDelStep oldRootHash) l0).inserted H = none := by
  induction xs generalizing l0 with
  | nil => exact h0
  | cons m rest ih =>
    simp only [List.foldl_cons]
    apply ih
    rw [mergeDelStep]
    split
    · simp only [UpdateLog.delete, alookup_aremove]
      split <;> simp [h0]
    · exact h0

/-- The insertion loop of `merge`: the final inserted entry at `n.Hash` is
`n.Encode` exactly when some processed node with that hash satisfies the
recording condition (all processed nodes being digest-consistent). -/
theorem merge_insLoop_lookup (nrc : Bytes) (n : Node) (xs : List Node) (l0 : UpdateLog)
    (hconsn : Node.Hash n = keccak256 (Node.Encode n))
    (hcons : ∀ m ∈ xs, Node.Hash m = keccak256 (Node.Encode m)) :
    alookup (xs.foldl (mergeInsStep nrc) l0).inserted (Node.Hash n) =
      (if ∃ m ∈ xs, Node.Hash m = Node.Hash n ∧
          ((Node.Capped m).length = 32 ∨ Node.Capped m = nrc) then some (Node.Encode n)
        else alookup l0.inserted (Node.Hash n)) := by
  induction xs generalizing l0 with
  | nil => simp
  | cons m rest ih =>
    have hm := hcons m (by simp)
    have hrest : ∀ m' ∈ rest, Node.Hash m' = keccak256 (Node.Encode m') :=
      fun m' hm' => hcons m' (by simp [hm'])
    have hiff : ∀ hside : ¬ (Node.Hash m = Node.Hash n ∧
          ((Node.Capped m).length = 32 ∨ Node.Capped m = nrc)),
        (∃ m' ∈ rest, Node.Hash m' = Node.Hash n ∧
          ((Node.Capped m').length = 32 ∨ Node.Capped m' = nrc)) ↔
        (∃ m' ∈ m :: rest, Node.Hash m' = Node.Hash n ∧
          ((Node.Capped m').length = 32 ∨ Node.Capped m' = nrc)) := by
      intro hside
      constructor
      · rintro ⟨m', hmem, hprop⟩
        exact ⟨m', by simp [hmem], hprop⟩
      · rintro ⟨m', hmem, hprop⟩
        rcases List.mem_cons.mp hmem with rfl | hmem'
        · exact absurd hprop hside
        · exact ⟨m', hmem', hprop⟩
    simp only [List.foldl_cons]
    by_cases hcnd : (Node.Capped m).length = 32 ∨ Node.Capped m = nrc
    · by_cases hh : Node.Hash m = Node.Hash n
      · have henc : Node.Encode m = Node.Encode n := by
          apply keccak256_injective
          rw [← hm, ← hconsn, hh]
        rw [if_pos ⟨m, by simp, hh, hcnd⟩]
        rw [ih _ hrest]
        split
        · rfl
        · rw [mergeInsStep, if_pos hcnd]
          simp only [UpdateLog.insert, alookup_aset]
          rw [if_pos hh.symm, henc]
      · rw [ih _ hrest]
        rw [if_congr (hiff (fun hq => hh hq.1)) rfl rfl]
        split
        · rfl
        · rw [mergeInsStep]
          rw [if_pos hcnd]
          simp only [UpdateLog.insert, alookup_aset]
          rw [if_neg (by intro hq; exact hh hq.symm)]
    · rw [ih _ hrest]
      rw [if_congr (hiff (fun hq => hcnd hq.2)) rfl rfl]
      rw [mergeInsStep, if_neg hcnd]

/-- C5: a digest-consistent node `n` of the inserted list of a `merge` call
ends up recorded in the log's inserted map (key `n.Hash`, value `n.Encode`)
if and only if its capped form is 32 bytes wide or equals the new root's
capped form (`EmptyHash` when the new root is absent, see
`newRootCappedOf`); in particular a new root whose encoding is shorter than
32 bytes is still recorded. -/
theorem C5_merge_inserted_iff (L : UpdateLog) (oldRootHash : Bytes)
    (newRootNode : Option Node) (dels inss : List Node) (n : Node)
    (hn : n ∈ inss)
    (hcons : ∀ m ∈ inss, Node.Hash m = keccak256 (Node.Encode m))
    (hfresh : alookup L.inserted (Node.Hash n) = none) :
    alookup (L.merge oldRootHash newRootNode dels inss).inserted (Node.Hash n)
        = some (Node.Encode n)
      ↔ ((Node.Capped n).length = 32 ∨ Node.Capped n = newRootCappedOf newRootNode) := by
  have hconsn := hcons n hn
  rw [merge_eq]
  rw [merge_insLoop_lookup (newRootCappedOf newRootNode) n inss _ hconsn hcons]
  rw [merge_delLoop_inserted_none oldRootHash dels L (Node.Hash n) hfresh]
  constructor
  · intro hsome
    by_cases hex : ∃ m ∈ inss, Node.Hash m = Node.Hash n ∧
        ((Node.Capped m).length = 32 ∨ Node.Capped m = newRootCappedOf newRootNode)
    · obtain ⟨m, hmem, hh, hcnd⟩ := hex
      have henc : Node.Encode m = Node.Encode n := by
        apply keccak256_injective
        rw [← hcons m hmem, ← hconsn, hh]
      have hcap : Node.Capped m = Node.Capped n :=
        capped_eq_of_encode_eq m n (hash_consistent_not_hash m (hcons m hmem))
          (hash_consistent_not_hash n hconsn) henc
      rw [hcap] at hcnd
      exact hcnd
    · rw [if_neg hex] at hsome
      exact absurd hsome (by simp)
  · intro hcnd
    rw [if_pos ⟨n, hn, rfl, hcnd⟩]

/-- C5 witness: a short new root is still recorded. -/
theorem C5_merge_inserted_iff_witness :
    ((Node.leaf [1] [2]) ∈ [Node.leaf [1] [2]] ∧
      (∀ m ∈ [Node.leaf [1] [2]], Node.Hash m = keccak256 (Node.Encode m)) ∧
      alookup newUpdateLog.inserted (Node.Hash (.leaf [1] [2])) = none) ∧
    (alookup (newUpdateLog.merge EmptyHash (some (.leaf [1] [2])) []
        [Node.leaf [1] [2]]).inserted (Node.Hash (.leaf [1] [2]))
        = some (Node.Encode (.leaf [1] [2]))
      ↔ ((Node.Capped (.leaf [1] [2])).length = 32 ∨
          Node.Capped (.leaf [1] [2]) = newRootCappedOf (some (.leaf [1] [2])))) :=
  ⟨⟨List.mem_singleton.mpr rfl,
    by
      intro m hm
      rw [List.mem_singleton] at hm
      subst hm
      rfl,
    rfl⟩,
    C5_merge_inserted_iff newUpdateLog EmptyHash (some (.leaf [1] [2])) []
      [Node.leaf [1] [2]] (.leaf [1] [2]) (List.mem_singleton.mpr rfl)
      (by
        intro m hm
        rw [List.mem_singleton] at hm
        subst hm
        rfl)
      rfl⟩

/-! ## Claim C7 -/

/-- C7 counterexample: the claim says `Get` returns absent on a store miss,
but the code panics: a trie whose root hash is in neither the journal nor
the (empty) backing store makes `Get` panic in `fetchFromDB` instead of
returning absent. -/
theorem C7_counterexample :
    Trie.Get [] 1 ⟨keccak256 [1], newUpdateLog⟩ []
        = .panicked "fetchFromDB: get from db failed" ∧
      ∀ l, Trie.Get [] 1 ⟨keccak256 [1], newUpdateLog⟩ [] ≠ .ok ([], l) := by
  constructor
  · rfl
  · intro l h
    rw [(rfl : Trie.Get [] 1 ⟨keccak256 [1], newUpdateLog⟩ []
      = .panicked "fetchFromDB: get from db failed")] at h
    exact PRes.noConfusion h

/-- C7 (amended): `Get` returns absent when the root hash is marked deleted
in the log, or when journal bytes fail to decode; on a store miss it panics
rather than returning absent; `Insert` and `Delete` panic on every one of
these resolution failures and so return no (partially built) trie at
all. -/
theorem C7_failure_modes (db : Store) (t : Trie) (key value : Bytes) (g : Nat)
    (hroot : t.rootHash ≠ EmptyHash) :
    ((alookup t.log.deleted t.rootHash).isSome →
      Trie.Get db g t key = .ok ([], t.log) ∧
      Trie.Insert db g t key value = .panicked "Insert: can't resolve rootHash" ∧
      Trie.Delete db g t key = .panicked "Delete: can't resolve rootHash") ∧
    (∀ bs e, alookup t.log.deleted t.rootHash = none →
      alookup t.log.inserted t.rootHash = some bs →
      decodeNode bs = .error e →
      Trie.Get db g t key = .ok ([], t.log) ∧
      Trie.Insert db g t key value = .panicked "Insert: can't resolve rootHash" ∧
      Trie.Delete db g t key = .panicked "Delete: can't resolve rootHash") ∧
    (alookup t.log.deleted t.rootHash = none →
      alookup t.log.inserted t.rootHash = none →
      alookup t.log.cached t.rootHash = none →
      alookup db t.rootHash = none →
      Trie.Get db g t key = .panicked "fetchFromDB: get from db failed" ∧
      Trie.Insert db g t key value = .panicked "fetchFromDB: get from db failed" ∧
      Trie.Delete db g t key = .panicked "fetchFromDB: get from db failed") := by
  refine ⟨?_, ?_, ?_⟩
  · intro hd
    have hres : resolveHash db t.log t.rootHash
        = .errR "trie is inconsistent, node has been deleted" :=
      (C6_resolve_order db t.log t.rootHash).1 hd
    refine ⟨?_, ?_, ?_⟩
    · rw [Trie.Get, if_neg hroot, hres]
    · rw [Trie.Insert]
      simp only [if_neg hroot, hres]
    · rw [Trie.Delete, if_neg hroot, hres]
  · intro bs e hd hi hdec
    have hres : resolveHash db t.log t.rootHash = .errR e := by
      rw [(C6_resolve_order db t.log t.rootHash).2.1 bs hd hi, hdec]
    refine ⟨?_, ?_, ?_⟩
    · rw [Trie.Get, if_neg hroot, hres]
    · rw [Trie.Insert]
      simp only [if_neg hroot, hres]
    · rw [Trie.Delete, if_neg hroot, hres]
  · intro hd hi hc hdb
    have hres : resolveHash db t.log t.rootHash
        = .panicked "fetchFromDB: get from db failed" := by
      rw [((C6_resolve_order db t.log t.rootHash).2.2.2 hd hi hc).1]
      rw [fetchFromDB, hdb]
    refine ⟨?_, ?_, ?_⟩
    · rw [Trie.Get, if_neg hroot, hres]
    · rw [Trie.Insert]
      simp only [if_neg hroot, hres]
    · rw [Trie.Delete, if_neg hroot, hres]

/-- C7 witness: the deleted-hash failure mode at a concrete trie. -/
theorem C7_failure_modes_witness :
    (⟨keccak256 [1], ⟨[], [], [(keccak256 [1], [])]⟩⟩ : Trie).rootHash ≠ EmptyHash ∧
      Trie.Get [] 1 ⟨keccak256 [1], ⟨[], [], [(keccak256 [1], [])]⟩⟩ [0x12]
        = .ok ([], ⟨[], [], [(keccak256 [1], [])]⟩) :=
  ⟨by decide,
    ((C7_failure_modes [] ⟨keccak256 [1], ⟨[], [], [(keccak256 [1], [])]⟩⟩ [0x12] [] 1
      (by decide)).1 (by decide)).1⟩

/-! ## Claims C2 and C4: order-dependent pruning panics -/

def insertSeq (db : Store) (fuel : Nat) : Trie → List (Bytes × Bytes) → PRes Trie
  | t, [] => .ok t
  | t, (k, v) :: rest =>
    (Trie.Insert db fuel t k v).bind fun p => insertSeq db fuel p.1 rest

def deleteSeq (db : Store) (fuel : Nat) : Trie → List Bytes → PRes Trie
  | t, [] => .ok t
  | t, k :: rest =>
    (Trie.Delete db fuel t k).bind fun p => deleteSeq db fuel p.1 rest

/-- A 28-byte value; two distinct keys mapped to it produce two
identical-content leaves whose encoding is exactly 32 bytes, so both branch
slots hold the same hash reference. -/
def sharedValue : Bytes := List.replicate 28 0

set_option maxRecDepth 400000 in
/-- C2: the claim fails on the code.  Inserting the mapping
`{10→V, 20→V, 11→V, 21→V}` (single-byte keys, V the shared 28-byte value)
into the empty trie in the order `10, 20, 11, 21` panics: inserting key
`11` replaces the shared leaf `leaf([0],V)` and `merge` marks its hash
deleted even though the branch child for nibble 2 still references it, so
inserting key `21` fails to resolve that hash.  Another insertion order of
the very same mapping succeeds, so no root-hash comparison is even
possible: the outcome is order dependent. -/
theorem C2_insert_order_panics :
    insertSeq [] 40 (NewTrie EmptyHash)
        [([0x10], sharedValue), ([0x20], sharedValue), ([0x11], sharedValue),
          ([0x21], sharedValue)]
        = .panicked "insert: can't resolve hashNode" ∧
      ∃ t : Trie, insertSeq [] 40 (NewTrie EmptyHash)
        [([0x10], sharedValue), ([0x11], sharedValue), ([0x20], sharedValue),
          ([0x21], sharedValue)]
        = .ok t :=
  ⟨by rfl, ⟨_, rfl⟩⟩

set_option maxRecDepth 400000 in
/-- C4: the claim fails on the code.  Build a trie from the empty trie with
the three distinct keys `10, 20, 30` all mapped to the shared 28-byte
value: the three branch children are identical leaves `leaf([0],V)` sharing
one hash.  Deleting key `10` prunes that hash from the journal while the
children for nibbles 2 and 3 still reference it, so deleting key `20` next
panics — the deletion sequence never reaches the empty root. -/
theorem C4_delete_all_panics :
    (insertSeq [] 40 (NewTrie EmptyHash)
        [([0x10], sharedValue), ([0x20], sharedValue), ([0x30], sharedValue)]).bind
        (fun t => deleteSeq [] 40 t [[0x10], [0x20], [0x30]])
        = .panicked "delete: can't resolve hashNode" := by
  rfl

/-! ## Claim C3: what an insert does to the receiver's log -/

theorem PRes.bind_ok {α β : Type} {x : PRes α} {f : α → PRes β} {b : β}
    (h : x.bind f = .ok b) : ∃ a, x = .ok a ∧ f a = .ok b := by
  cases x with
  | timeout => exact absurd h (by simp [PRes.bind])
  | panicked m => exact absurd h (by simp [PRes.bind])
  | ok a => exact ⟨a, rfl, h⟩

/-- The relation between a log and the receiver's log after an operation:
inserted and deleted are untouched; cached may gain entries, each holding
exactly the (nonempty, decodable) bytes the backing store holds for its
hash. -/
def CacheExtends (db : Store) (l l' : UpdateLog) : Prop :=
  l'.inserted = l.inserted ∧ l'.deleted = l.deleted ∧
    ∀ h : Bytes, alookup l'.cached h = alookup l.cached h ∨
      (alookup l.cached h = none ∧
        ∃ bs n, alookup l'.cached h = some bs ∧ alookup db h = some bs ∧
          bs.length ≠ 0 ∧ decodeNode bs = .ok n)

theorem cacheExtends_refl (db : Store) (l : UpdateLog) : CacheExtends db l l :=
  ⟨rfl, rfl, fun _ => Or.inl rfl⟩

theorem cacheExtends_trans {db : Store} {l1 l2 l3 : UpdateLog}
    (h12 : CacheExtends db l1 l2) (h23 : CacheExtends db l2 l3) : CacheExtends db l1 l3 := by
  obtain ⟨hi12, hd12, hc12⟩ := h12
  obtain ⟨hi23, hd23, hc23⟩ := h23
  refine ⟨hi23.trans hi12, hd23.trans hd12, ?_⟩
  intro h
  rcases hc23 h with he3 | ⟨hn2, bs, n, h3, hdb, hlen, hdec⟩
  · rcases hc12 h with he2 | ⟨hn1, bs, n, h2, hdb, hlen, hdec⟩
    · exact Or.inl (he3.trans he2)
    · exact Or.inr ⟨hn1, bs, n, he3.trans h2, hdb, hlen, hdec⟩
  · rcases hc12 h with he2 | ⟨hn1, _⟩
    · exact Or.inr ⟨he2.symm.trans hn2, bs, n, h3, hdb, hlen, hdec⟩
    · exact Or.inr ⟨hn1, bs, n, h3, hdb, hlen, hdec⟩

theorem resolveHash_found_cacheExtends (db : Store) (l : UpdateLog) (h : Bytes)
    {n : Node} {l1 : UpdateLog} (hres : resolveHash db l h = .found n l1) :
    CacheExtends db l l1 := by
  rw [resolveHash] at hres
  by_cases hd : (alookup l.deleted h).isSome
  · rw [if_pos hd] at hres
    exact RRes.noConfusion hres
  · rw [if_neg hd] at hres
    cases hi : alookup l.inserted h with
    | some bs =>
      simp only [hi] at hres
      cases hdec : decodeNode bs with
      | ok m =>
        simp only [hdec] at hres
        injection hres with h1 h2
        subst h2
        exact cacheExtends_refl db l
      | error e =>
        simp only [hdec] at hres
        exact RRes.noConfusion hres
    | none =>
      simp only [hi] at hres
      cases hc : alookup l.cached h with
      | some bs =>
        simp only [hc] at hres
        cases hdec : decodeNode bs with
        | ok m =>
          simp only [hdec] at hres
          injection hres with h1 h2
          subst h2
          exact cacheExtends_refl db l
        | error e =>
          simp only [hdec] at hres
          exact RRes.noConfusion hres
      | none =>
        simp only [hc, fetchFromDB] at hres
        cases hdb : alookup db h with
        | none =>
          simp only [hdb] at hres
          exact RRes.noConfusion hres
        | some bs =>
          simp only [hdb] at hres
          by_cases hlen : bs.length = 0
          · rw [if_pos hlen] at hres
            exact RRes.noConfusion hres
          · rw [if_neg hlen] at hres
            cases hdec : decodeNode bs with
            | error e =>
              simp only [hdec] at hres
              exact RRes.noConfusion hres
            | ok m =>
              simp only [hdec] at hres
              injection hres with h1 h2
              subst h1
              subst h2
              refine ⟨rfl, rfl, ?_⟩
              intro h2
              by_cases hh : h2 = h
              · subst hh
                exact Or.inr ⟨hc, bs, m,
                  by simp [UpdateLog.cache, alookup_aset], hdb, hlen, hdec⟩
              · left
                simp [UpdateLog.cache, alookup_aset, hh]

/-- Every step of the recursive insert leaves the receiver's journal
untouched except for store fetches cached during hash resolution. -/
theorem insert_cacheExtends_all : ∀ fuel : Nat,
    (∀ db log n sk v res log₁, Trie.insert db fuel log n sk v = .ok (res, log₁) →
      CacheExtends db log log₁) ∧
    (∀ db log lk lv sk v res log₁, insertToLeaf db fuel log lk lv sk v = .ok (res, log₁) →
      CacheExtends db log log₁) ∧
    (∀ db log ek ec sk v res log₁, insertToExt db fuel log ek ec sk v = .ok (res, log₁) →
      CacheExtends db log log₁) ∧
    (∀ db log ch t sk v res log₁, insertToBranch db fuel log ch t sk v = .ok (res, log₁) →
      CacheExtends db log log₁) := by
  intro fuel
  induction fuel with
  | zero =>
    refine ⟨?_, ?_, ?_, ?_⟩ <;> intro db log
    · intro n sk v res log₁ h
      exact PRes.noConfusion h
    · intro lk lv sk v res log₁ h
      exact PRes.noConfusion h
    · intro ek ec sk v res log₁ h
      exact PRes.noConfusion h
    · intro ch t sk v res log₁ h
      exact PRes.noConfusion h
  | succ fuel ih =>
    refine ⟨?_, ?_, ?_, ?_⟩
    · intro db log n sk v res log₁ h
      cases n with
      | leaf k v' =>
        simp only [Trie.insert] at h
        exact ih.2.1 _ _ _ _ _ _ _ _ h
      | ext k c =>
        simp only [Trie.insert] at h
        exact ih.2.2.1 _ _ _ _ _ _ _ _ h
      | branch ch t =>
        simp only [Trie.insert] at h
        exact ih.2.2.2 _ _ _ _ _ _ _ _ h
      | hashN hh =>
        simp only [Trie.insert] at h
        cases hres : resolveHash db log hh with
        | errR m =>
          simp only [hres] at h
          exact PRes.noConfusion h
        | panicked m =>
          simp only [hres] at h
          exact PRes.noConfusion h
        | found m log2 =>
          simp only [hres] at h
          exact cacheExtends_trans (resolveHash_found_cacheExtends db log hh hres)
            (ih.1 _ _ _ _ _ _ _ h)
    · intro db log lk lv sk v res log₁ h
      simp only [insertToLeaf] at h
      by_cases h1 : matchingLength sk lk = sk.length ∧ matchingLength sk lk = lk.length
      · rw [if_pos h1] at h
        injection h with h'
        injection h' with he1 he2
        subst he2
        exact cacheExtends_refl db log
      · rw [if_neg h1] at h
        by_cases h2 : matchingLength sk lk = 0
        · rw [if_pos h2] at h
          obtain ⟨p, hin, hout⟩ := PRes.bind_ok h
          injection hout with h'
          injection h' with he1 he2
          subst he2
          exact ih.1 _ _ _ _ _ _ _ hin
        · rw [if_neg h2] at h
          obtain ⟨p, hin, hout⟩ := PRes.bind_ok h
          injection hout with h'
          injection h' with he1 he2
          subst he2
          exact ih.1 _ _ _ _ _ _ _ hin
    · intro db log ek ec sk v res log₁ h
      simp only [insertToExt] at h
      by_cases h1 : matchingLength sk ek = 0
      · rw [if_pos h1] at h
        cases ek with
        | nil => exact PRes.noConfusion h
        | cons k0 krest =>
          obtain ⟨p, hin, hout⟩ := PRes.bind_ok h
          injection hout with h'
          injection h' with he1 he2
          subst he2
          exact ih.1 _ _ _ _ _ _ _ hin
      · rw [if_neg h1] at h
        by_cases h2 : matchingLength sk ek = ek.length
        · rw [if_pos h2] at h
          obtain ⟨p, hin, hout⟩ := PRes.bind_ok h
          injection hout with h'
          injection h' with he1 he2
          subst he2
          exact ih.1 _ _ _ _ _ _ _ hin
        · rw [if_neg h2] at h
          obtain ⟨p, hin, hout⟩ := PRes.bind_ok h
          injection hout with h'
          injection h' with he1 he2
          subst he2
          exact ih.1 _ _ _ _ _ _ _ hin
    · intro db log ch t sk v res log₁ h
      simp only [insertToBranch] at h
      cases sk with
      | nil =>
        injection h with h'
        injection h' with he1 he2
        subst he2
        exact cacheExtends_refl db log
      | cons pos rest =>
        cases hget : ch.get pos with
        | some child =>
          simp only [hget] at h
          obtain ⟨p, hin, hout⟩ := PRes.bind_ok h
          injection hout with h'
          injection h' with he1 he2
          subst he2
          exact ih.1 _ _ _ _ _ _ _ hin
        | none =>
          simp only [hget] at h
          injection h with h'
          injection h' with he1 he2
          subst he2
          exact cacheExtends_refl db log

/-- `Trie.Insert` only cache-extends the receiver's log. -/
theorem Insert_cacheExtends (db : Store) (fuel : Nat) (t : Trie) (key value : Bytes)
    (t' : Trie) (log₁ : UpdateLog)
    (h : Trie.Insert db fuel t key value = .ok (t', log₁)) :
    CacheExtends db t.log log₁ := by
  rw [Trie.Insert] at h
  by_cases hroot : t.rootHash = EmptyHash
  · simp only [if_pos hroot] at h
    injection h with h'
    injection h' with he1 he2
    subst he2
    exact cacheExtends_refl db t.log
  · simp only [if_neg hroot] at h
    cases hres : resolveHash db t.log t.rootHash with
    | errR m =>
      simp only [hres] at h
      exact PRes.noConfusion h
    | panicked m =>
      simp only [hres] at h
      exact PRes.noConfusion h
    | found m log2 =>
      simp only [hres] at h
      obtain ⟨p, hin, hout⟩ := PRes.bind_ok h
      injection hout with h'
      injection h' with he1 he2
      subst he2
      exact cacheExtends_trans (resolveHash_found_cacheExtends db t.log t.rootHash hres)
        ((insert_cacheExtends_all fuel).1 _ _ _ _ _ _ _ hin)

/-- Correspondence of two resolution results under a cache extension. -/
def RRel (db : Store) : RRes → RRes → Prop
  | .errR m, .errR m' => m = m'
  | .panicked m, .panicked m' => m = m'
  | .found n l2, .found n' l2' => n = n' ∧ CacheExtends db l2 l2'
  | _, _ => False

/-- Correspondence of two read results under a cache extension. -/
def GRel (db : Store) : PRes (Bytes × UpdateLog) → PRes (Bytes × UpdateLog) → Prop
  | .timeout, .timeout => True
  | .panicked m, .panicked m' => m = m'
  | .ok (v, l2), .ok (v', l2') => v = v' ∧ CacheExtends db l2 l2'
  | _, _ => False

theorem cacheExtends_cache_both {db : Store} {l l' : UpdateLog} (hce : CacheExtends db l l')
    (h bs : Bytes) : CacheExtends db (l.cache h bs) (l'.cache h bs) := by
  refine ⟨hce.1, hce.2.1, ?_⟩
  intro h2
  by_cases hh : h2 = h
  · subst hh
    left
    simp [UpdateLog.cache, alookup_aset]
  · rcases hce.2.2 h2 with he | ⟨hn, bs2, n2, rest⟩
    · left
      simpa [UpdateLog.cache, alookup_aset, hh] using he
    · right
      refine ⟨by simpa [UpdateLog.cache, alookup_aset, hh] using hn, bs2, n2, ?_⟩
      simpa [UpdateLog.cache, alookup_aset, hh] using rest
  
theorem cacheExtends_cache_left {db : Store} {l l' : UpdateLog} (hce : CacheExtends db l l')
    (h bs : Bytes) (hl' : alookup l'.cached h = some bs) :
    CacheExtends db (l.cache h bs) l' := by
  refine ⟨hce.1, hce.2.1, ?_⟩
  intro h2
  by_cases hh : h2 = h
  · subst hh
    left
    simp [UpdateLog.cache, alookup_aset, hl']
  · rcases hce.2.2 h2 with he | ⟨hn, bs2, n2, rest⟩
    · left
      simpa [UpdateLog.cache, alookup_aset, hh] using he
    · right
      refine ⟨by simp [UpdateLog.cache, alookup_aset, hh, hn], bs2, n2, rest⟩

theorem resolveHash_RRel (db : Store) (l l' : UpdateLog) (h : Bytes)
    (hce : CacheExtends db l l') :
    RRel db (resolveHash db l h) (resolveHash db l' h) := by
  rw [resolveHash, resolveHash, hce.1, hce.2.1]
  by_cases hd : (alookup l.deleted h).isSome
  · rw [if_pos hd, if_pos hd]
    exact rfl
  · rw [if_neg hd, if_neg hd]
    cases hi : alookup l.inserted h with
    | some bs =>
      simp only
      cases hdec : decodeNode bs with
      | ok m => exact ⟨rfl, hce⟩
      | error e => exact rfl
    | none =>
      simp only
      rcases hce.2.2 h with he | ⟨hn, bs, m, hl', hdb, hlen, hdec⟩
      · rw [he]
        cases hc : alookup l.cached h with
        | some bs =>
          simp only
          cases hdec : decodeNode bs with
          | ok m => exact ⟨rfl, hce⟩
          | error e => exact rfl
        | none =>
          simp only [fetchFromDB]
          cases hdb : alookup db h with
          | none =>
            simp only [hdb]
            exact rfl
          | some bs =>
            simp only [hdb]
            by_cases hlen : bs.length = 0
            · rw [if_pos hlen, if_pos hlen]
              exact rfl
            · rw [if_neg hlen, if_neg hlen]
              cases hdec : decodeNode bs with
              | error e =>
                simp only [hdec]
                exact rfl
              | ok m =>
                simp only [hdec]
                exact ⟨rfl, cacheExtends_cache_both hce h bs⟩
      · rw [hn, hl']
        simp only [fetchFromDB, hdb]
        rw [if_neg hlen]
        simp only [hdec]
        exact ⟨rfl, cacheExtends_cache_left hce h bs hl'⟩

theorem tryGet_GRel : ∀ (fuel : Nat) (db : Store) (l l' : UpdateLog) (n : Node) (sk : Bytes),
    CacheExtends db l l' → GRel db (tryGet db fuel l n sk) (tryGet db fuel l' n sk) := by
  intro fuel
  induction fuel with
  | zero => intro db l l' n sk hce; exact trivial
  | succ fuel ih =>
    intro db l l' n sk hce
    cases n with
    | leaf k v => exact ⟨rfl, hce⟩
    | ext k c =>
      simp only [tryGet]
      by_cases h1 : sk.length < k.length
      · rw [if_pos h1, if_pos h1]
        exact ⟨rfl, hce⟩
      · rw [if_neg h1, if_neg h1]
        by_cases h2 : sk.take k.length = k
        · rw [if_pos h2, if_pos h2]
          exact ih db l l' c (sk.drop k.length) hce
        · rw [if_neg h2, if_neg h2]
          exact ⟨rfl, hce⟩
    | branch ch t =>
      cases sk with
      | nil => exact ⟨rfl, hce⟩
      | cons pos rest =>
        simp only [tryGet]
        cases hget : ch.get pos with
        | none =>
          simp only [hget]
          exact ⟨rfl, hce⟩
        | some c =>
          simp only [hget]
          exact ih db l l' c rest hce
    | hashN hh =>
      simp only [tryGet]
      have hr := resolveHash_RRel db l l' hh hce
      cases r1 : resolveHash db l hh with
      | errR m =>
        cases r2 : resolveHash db l' hh with
        | errR m' => exact ⟨rfl, hce⟩
        | panicked m' => rw [r1, r2] at hr; exact absurd hr (by simp [RRel])
        | found n2 l2 => rw [r1, r2] at hr; exact absurd hr (by simp [RRel])
      | panicked m =>
        cases r2 : resolveHash db l' hh with
        | errR m' => rw [r1, r2] at hr; exact absurd hr (by simp [RRel])
        | panicked m' => rw [r1, r2] at hr; exact hr
        | found n2 l2 => rw [r1, r2] at hr; exact absurd hr (by simp [RRel])
      | found n2 l2 =>
        cases r2 : resolveHash db l' hh with
        | errR m' => rw [r1, r2] at hr; exact absurd hr (by simp [RRel])
        | panicked m' => rw [r1, r2] at hr; exact absurd hr (by simp [RRel])
        | found n2' l2' =>
          rw [r1, r2] at hr
          obtain ⟨hn2, hce2⟩ := hr
          subst hn2
          exact ih db l2 l2' n2 sk hce2

/-- The value component of a read result. -/
def presValue : PRes (Bytes × UpdateLog) → PRes Bytes
  | .timeout => .timeout
  | .panicked m => .panicked m
  | .ok p => .ok p.1

theorem GRel_presValue {db : Store} {a b : PRes (Bytes × UpdateLog)} (h : GRel db a b) :
    presValue a = presValue b := by
  cases a with
  | timeout => cases b with
    | timeout => rfl
    | panicked m => exact absurd h (by simp [GRel])
    | ok p => exact absurd h (by simp [GRel])
  | panicked m => cases b with
    | timeout => exact absurd h (by simp [GRel])
    | panicked m' => rw [show m = m' from h]
    | ok p => exact absurd h (by simp [GRel])
  | ok p => cases b with
    | timeout => exact absurd h (by obtain ⟨v, l⟩ := p; simp [GRel])
    | panicked m' => exact absurd h (by obtain ⟨v, l⟩ := p; simp [GRel])
    | ok p' =>
      obtain ⟨v, l⟩ := p
      obtain ⟨v', l'⟩ := p'
      obtain ⟨hv, _⟩ := h
      simp [presValue, hv]

theorem Get_GRel (db : Store) (g : Nat) (r : Bytes) (l l' : UpdateLog) (key : Bytes)
    (hce : CacheExtends db l l') :
    GRel db (Trie.Get db g ⟨r, l⟩ key) (Trie.Get db g ⟨r, l'⟩ key) := by
  rw [Trie.Get, Trie.Get]
  by_cases hroot : r = EmptyHash
  · simp only [if_pos hroot]
    exact ⟨rfl, hce⟩
  · simp only [if_neg hroot]
    have hr := resolveHash_RRel db l l' r hce
    cases r1 : resolveHash db l r with
    | errR m =>
      cases r2 : resolveHash db l' r with
      | errR m' => exact ⟨rfl, hce⟩
      | panicked m' => rw [r1, r2] at hr; exact absurd hr (by simp [RRel])
      | found n2 l2 => rw [r1, r2] at hr; exact absurd hr (by simp [RRel])
    | panicked m =>
      cases r2 : resolveHash db l' r with
      | errR m' => rw [r1, r2] at hr; exact absurd hr (by simp [RRel])
      | panicked m' => rw [r1, r2] at hr; exact hr
      | found n2 l2 => rw [r1, r2] at hr; exact absurd hr (by simp [RRel])
    | found n2 l2 =>
      cases r2 : resolveHash db l' r with
      | errR m' => rw [r1, r2] at hr; exact absurd hr (by simp [RRel])
      | panicked m' => rw [r1, r2] at hr; exact absurd hr (by simp [RRel])
      | found n2' l2' =>
        rw [r1, r2] at hr
        obtain ⟨hn2, hce2⟩ := hr
        subst hn2
        exact tryGet_GRel g db l2 l2' n2 (bytesToNibbles key) hce2

set_option maxRecDepth 100000 in
/-- C3 counterexample: inserting into a trie whose root lives only in the
backing store changes the receiver's log — resolution caches the fetched
root bytes into the receiver's `cached` map, so the log is not unchanged as
the claim states. -/
theorem C3_counterexample :
    ∃ p : Trie × UpdateLog,
      Trie.Insert [(Node.Hash (.leaf [1, 0] [5]), Node.Encode (.leaf [1, 0] [5]))] 10
          (NewTrie (Node.Hash (.leaf [1, 0] [5]))) [0x20] [6] = .ok p ∧
        p.2 ≠ (NewTrie (Node.Hash (.leaf [1, 0] [5]))).log := by
  refine ⟨_, rfl, ?_⟩
  decide

set_option maxRecDepth 100000 in
/-- C3 (amended): after a successful `T.Insert(k,v)` the receiver `T` keeps
its root hash (the model's receiver is only ever mutated through its log,
which the operation returns), its `inserted` and `deleted` maps are
unchanged, its `cached` map at most gains entries holding exactly the bytes
the backing store holds for their hash, and `T.Get` returns the same value
as before the insert on every key. -/
theorem C3_insert_frame (db : Store) (fuel : Nat) (t : Trie) (key value : Bytes)
    (t' : Trie) (log₁ : UpdateLog)
    (hok : Trie.Insert db fuel t key value = .ok (t', log₁)) :
    (Trie.mk t.rootHash log₁).StateRoot = t.StateRoot ∧
      log₁.inserted = t.log.inserted ∧
      log₁.deleted = t.log.deleted ∧
      CacheExtends db t.log log₁ ∧
      ∀ (g : Nat) (key2 : Bytes),
        presValue (Trie.Get db g (Trie.mk t.rootHash log₁) key2)
          = presValue (Trie.Get db g t key2) := by
  have hce := Insert_cacheExtends db fuel t key value t' log₁ hok
  refine ⟨rfl, hce.1, hce.2.1, hce, ?_⟩
  intro g key2
  have := Get_GRel db g t.rootHash t.log log₁ key2 hce
  exact (GRel_presValue this).symm

set_option maxRecDepth 100000 in
/-- C3 witness. -/
theorem C3_insert_frame_witness :
    ∃ p : Trie × UpdateLog,
      Trie.Insert [] 5 (NewTrie EmptyHash) [1] [2] = .ok p ∧
        ((Trie.mk (NewTrie EmptyHash).rootHash p.2).StateRoot = (NewTrie EmptyHash).StateRoot ∧
          p.2.inserted = (NewTrie EmptyHash).log.inserted ∧
          p.2.deleted = (NewTrie EmptyHash).log.deleted ∧
          CacheExtends [] (NewTrie EmptyHash).log p.2 ∧
          ∀ (g : Nat) (key2 : Bytes),
            presValue (Trie.Get [] g (Trie.mk (NewTrie EmptyHash).rootHash p.2) key2)
              = presValue (Trie.Get [] g (NewTrie EmptyHash) key2)) :=
  ⟨_, rfl, C3_insert_frame [] 5 (NewTrie EmptyHash) [1] [2] _ _ rfl⟩

/-! ## Claim C1: insert-then-get -/

theorem bytesToNibbles_nibblesToBytes : ∀ k : Bytes, (∀ x ∈ k, x < 16) → k.length % 2 = 0 →
    bytesToNibbles (nibblesToBytes k) = k
  | [], _, _ => rfl
  | [x], _, hl => by simp at hl
  | x :: y :: rest, hv, hl => by
    have hx : x < 16 := hv x (by simp)
    have hy : y < 16 := hv y (by simp)
    have hrest := bytesToNibbles_nibblesToBytes rest
      (fun z hz => hv z (by simp [hz])) (by simp at hl; omega)
    simp only [nibblesToBytes, bytesToNibbles, hrest]
    have h1 : (x * 16 + y) / 16 = x := by omega
    have h2 : (x * 16 + y) % 16 = y := by omega
    rw [h1, h2]

theorem keyRound_valid (k : Bytes) (hk : ∀ x ∈ k, x < 16) : keyRound k = k := by
  rw [keyRound]
  by_cases hpar : k.length % 2 ≠ 0
  · simp only [if_pos hpar]
    have hv : ∀ x ∈ k ++ [0], x < 16 := by
      intro x hx
      rcases List.mem_append.mp hx with h | h
      · exact hk x h
      · simp at h
        omega
    have hlen : (k ++ [0]).length % 2 = 0 := by
      simp
      omega
    rw [bytesToNibbles_nibblesToBytes (k ++ [0]) hv hlen]
    simp
  · simp only [if_neg hpar]
    exact bytesToNibbles_nibblesToBytes k hk (by omega)

theorem matchingLength_le_left : ∀ a b : Bytes, matchingLength a b ≤ a.length
  | [], _ => by simp [matchingLength]
  | _ :: _, [] => by simp [matchingLength]
  | x :: a, y :: b => by
    simp only [matchingLength]
    split
    · have := matchingLength_le_left a b
      simp
      omega
    · simp

theorem matchingLength_le_right : ∀ a b : Bytes, matchingLength a b ≤ b.length
  | [], _ => by simp [matchingLength]
  | _ :: _, [] => by simp [matchingLength]
  | x :: a, y :: b => by
    simp only [matchingLength]
    split
    · have := matchingLength_le_right a b
      simp
      omega
    · simp

theorem matchingLength_take : ∀ a b : Bytes,
    a.take (matchingLength a b) = b.take (matchingLength a b)
  | [], b => by simp [matchingLength]
  | _ :: _, [] => by simp [matchingLength]
  | x :: a, y :: b => by
    simp only [matchingLength]
    split
    · rename_i hxy
      simp only [List.take_succ_cons, matchingLength_take a b, hxy]
    · simp

theorem optBytes_getD (v : Bytes) : (optBytes v).getD [] = v := by
  rw [optBytes]
  split
  · simp_all
  · rfl

theorem optBytes_idem (v : Bytes) : optBytes ((optBytes v).getD []) = optBytes v := by
  rw [optBytes_getD]

theorem Children.count_emptyN (n : Nat) : (Children.emptyN n).count = n := by
  induction n with
  | zero => rfl
  | succ n ih => simp [Children.emptyN, Children.count, ih]

theorem Children.count_set : ∀ (ch : Children) (i : Nat) (v : Option Node),
    (ch.set i v).count = ch.count
  | .nil, _, _ => rfl
  | .consNone tl, 0, none => rfl
  | .consNone tl, 0, some _ => rfl
  | .consSome _ tl, 0, none => rfl
  | .consSome _ tl, 0, some _ => rfl
  | .consNone tl, i + 1, v => by
    simp [Children.set, Children.count, Children.count_set tl i v]
  | .consSome c tl, i + 1, v => by
    simp [Children.set, Children.count, Children.count_set tl i v]

theorem Children.get_set_self : ∀ (ch : Children) (i : Nat) (v : Option Node),
    i < ch.count → (ch.set i v).get i = v
  | .nil, _, _, h => by simp [Children.count] at h
  | .consNone tl, 0, none, _ => rfl
  | .consNone tl, 0, some _, _ => rfl
  | .consSome _ tl, 0, none, _ => rfl
  | .consSome _ tl, 0, some _, _ => rfl
  | .consNone tl, i + 1, v, h => by
    simp only [Children.set, Children.get]
    exact Children.get_set_self tl i v (by simp [Children.count] at h; omega)
  | .consSome c tl, i + 1, v, h => by
    simp only [Children.set, Children.get]
    exact Children.get_set_self tl i v (by simp [Children.count] at h; omega)

/-- Whether a node may sit in a child slot of a well-formed parent. -/
def okChild : Node → Bool
  | .hashN h => decide (h.length = 32)
  | _ => true

theorem okChild_of_not_hash (c : Node) (h : c.isHash = false) : okChild c = true := by
  cases c with
  | hashN _ => simp [Node.isHash] at h
  | leaf _ _ => rfl
  | ext _ _ => rfl
  | branch _ _ => rfl

theorem wf32N_ext_iff (k : Bytes) (c : Node) :
    wf32N (.ext k c) = (okChild c && wf32N c) := by
  cases c <;> rfl

theorem wf32N_branch_iff (ch : Children) (t : Option Bytes) :
    wf32N (.branch ch t) = (decide (ch.count = 16) && wf32Ch ch) := rfl

theorem wf32Ch_consSome_iff (c : Node) (tl : Children) :
    wf32Ch (.consSome c tl) = (okChild c && wf32N c && wf32Ch tl) := by
  cases c <;> rfl

theorem wf32Ch_emptyN (n : Nat) : wf32Ch (Children.emptyN n) = true := by
  induction n with
  | zero => rfl
  | succ n ih => simp [Children.emptyN, wf32Ch, ih]

theorem wf32Ch_set : ∀ (ch : Children) (i : Nat) (c : Node),
    wf32Ch ch = true → okChild c = true → wf32N c = true →
    wf32Ch (ch.set i (some c)) = true
  | .nil, _, _, h, _, _ => h
  | .consNone tl, 0, c, hch, hok, hwf => by
    simp only [Children.set, wf32Ch_consSome_iff]
    simp only [wf32Ch] at hch
    simp [hok, hwf, hch]
  | .consSome c0 tl, 0, c, hch, hok, hwf => by
    simp only [Children.set, wf32Ch_consSome_iff]
    simp only [wf32Ch_consSome_iff, Bool.and_eq_true] at hch
    simp [hok, hwf, hch.2]
  | .consNone tl, i + 1, c, hch, hok, hwf => by
    simp only [Children.set, wf32Ch]
    simp only [wf32Ch] at hch
    exact wf32Ch_set tl i c hch hok hwf
  | .consSome c0 tl, i + 1, c, hch, hok, hwf => by
    simp only [Children.set, wf32Ch_consSome_iff, Bool.and_eq_true]
    simp only [wf32Ch_consSome_iff, Bool.and_eq_true] at hch
    exact ⟨hch.1, wf32Ch_set tl i c hch.2 hok hwf⟩

theorem wf32Ch_get : ∀ (ch : Children) (i : Nat) (c : Node),
    wf32Ch ch = true → ch.get i = some c → wf32N c = true
  | .nil, i, c, _, hg => by simp [Children.get] at hg
  | .consNone tl, 0, c, _, hg => by simp [Children.get] at hg
  | .consSome c0 tl, 0, c, hch, hg => by
    simp only [Children.get] at hg
    injection hg with hg
    subst hg
    simp only [wf32Ch_consSome_iff, Bool.and_eq_true] at hch
    exact hch.1.2
  | .consNone tl, i + 1, c, hch, hg => by
    simp only [Children.get] at hg
    simp only [wf32Ch] at hch
    exact wf32Ch_get tl i c hch hg
  | .consSome c0 tl, i + 1, c, hch, hg => by
    simp only [Children.get] at hg
    simp only [wf32Ch_consSome_iff, Bool.and_eq_true] at hch
    exact wf32Ch_get tl i c hch.2 hg

theorem canonCh_get : ∀ (ch : Children) (i : Nat),
    (canonCh ch).get i =
      (match ch.get i with
        | none => none
        | some c =>
          if (Node.Capped c).length = 0 then none
          else if (Node.Capped c).length = 32 then some (.hashN (Node.Capped c))
          else some (canonN c))
  | .nil, i => by simp [canonCh, Children.get]
  | .consNone tl, 0 => by simp [canonCh, Children.get]
  | .consSome c tl, 0 => by
    simp only [canonCh, Children.get]
    by_cases h0 : (Node.Capped c).length = 0
    · rw [if_pos h0]
      simp [Children.get, h0]
    · rw [if_neg h0]
      by_cases h32 : (Node.Capped c).length = 32
      · rw [if_pos h32]
        simp [Children.get, h0, h32]
      · rw [if_neg h32]
        simp [Children.get, h0, h32]
  | .consNone tl, i + 1 => by
    simp only [canonCh, Children.get]
    exact canonCh_get tl i
  | .consSome c tl, i + 1 => by
    simp only [canonCh]
    by_cases h0 : (Node.Capped c).length = 0
    · rw [if_pos h0]
      simp only [Children.get]
      exact canonCh_get tl i
    · rw [if_neg h0]
      by_cases h32 : (Node.Capped c).length = 32
      · rw [if_pos h32]
        simp only [Children.get]
        exact canonCh_get tl i
      · rw [if_neg h32]
        simp only [Children.get]
        exact canonCh_get tl i

theorem decodeLeafNode_wf (raw : Bytes) (flag : Nat) (n : Node)
    (h : decodeLeafNode raw flag = .ok n) : n.isHash = false ∧ wf32N n = true := by
  rw [decodeLeafNode] at h
  split at h
  · exact Except.noConfusion h
  · split at h
    · exact Except.noConfusion h
    · split at h
      · injection h with h
        subst h
        exact ⟨rfl, rfl⟩
      · exact Except.noConfusion h

/-- Every successfully decoded node is well formed: hash references carry
32-wide hashes and branches have 16 child slots. -/
theorem decode_wf_all : ∀ fuel : Nat,
    (∀ bs n, decodeA fuel bs = .ok n → n.isHash = false ∧ wf32N n = true) ∧
    (∀ raw flag n, decodeExtNode fuel raw flag = .ok n → n.isHash = false ∧ wf32N n = true) ∧
    (∀ raw n, decodeBranchNode fuel raw = .ok n → n.isHash = false ∧ wf32N n = true) ∧
    (∀ k bs es ch r e, decodeBranchCh fuel k bs es = .ok (ch, r, e) →
      wf32Ch ch = true ∧ ch.count = k) := by
  intro fuel
  induction fuel with
  | zero =>
    refine ⟨?_, ?_, ?_, ?_⟩
    · intro bs n h
      exact Except.noConfusion h
    · intro raw flag n h
      exact Except.noConfusion h
    · intro raw n h
      exact Except.noConfusion h
    · intro k bs es ch r e h
      exact Except.noConfusion h
  | succ fuel ih =>
    refine ⟨?_, ?_, ?_, ?_⟩
    · intro bs n h
      simp only [decodeA] at h
      split at h
      · exact Except.noConfusion h
      · split at h
        · exact decodeLeafNode_wf _ _ _ h
        · split at h
          · exact ih.2.1 _ _ _ h
          · split at h
            · exact ih.2.2.1 _ _ h
            · exact Except.noConfusion h
    · intro raw flag n h
      simp only [decodeExtNode] at h
      split at h
      · exact Except.noConfusion h
      · split at h
        · exact Except.noConfusion h
        · split at h
          · split at h
            · injection h with h
              subst h
              refine ⟨rfl, ?_⟩
              rw [wf32N_ext_iff]
              simp_all [okChild, wf32N]
            · split at h
              · rename_i c hdec
                injection h with h
                subst h
                have hc := (ih.1 _ _ hdec)
                refine ⟨rfl, ?_⟩
                rw [wf32N_ext_iff]
                simp [okChild_of_not_hash c hc.1, hc.2]
              · exact Except.noConfusion h
          · exact Except.noConfusion h
    · intro raw n h
      simp only [decodeBranchNode] at h
      split at h
      · exact Except.noConfusion h
      · rename_i ch r es hch
        split at h
        · exact Except.noConfusion h
        · split at h
          · split at h
            · exact Except.noConfusion h
            · injection h with h
              subst h
              have := ih.2.2.2 _ _ _ _ _ _ hch
              refine ⟨rfl, ?_⟩
              rw [wf32N_branch_iff]
              simp [this.1, this.2]
          · exact Except.noConfusion h
    · intro k bs es ch r e h
      match k, h with
      | 0, h =>
        simp only [decodeBranchCh] at h
        injection h with h
        injection h with h1 h2
        subst h1
        exact ⟨rfl, rfl⟩
      | k + 1, h =>
        simp only [decodeBranchCh] at h
        split at h
        · exact Except.noConfusion h
        · split at h
          · split at h
            · rename_i hrec
              injection h with h
              injection h with h1 h2
              injection h2 with h2 h3
              subst h1
              have := ih.2.2.2 _ _ _ _ _ _ hrec
              refine ⟨this.1, by simp [Children.count, this.2]⟩
            · exact Except.noConfusion h
          · split at h
            · split at h
              · rename_i hrec
                injection h with h
                injection h with h1 h2
                injection h2 with h2 h3
                subst h1
                have := ih.2.2.2 _ _ _ _ _ _ hrec
                refine ⟨?_, by simp [Children.count, this.2]⟩
                rw [wf32Ch_consSome_iff]
                simp_all [okChild, wf32N]
              · exact Except.noConfusion h
            · split at h
              · rename_i c hdec
                split at h
                · rename_i hrec
                  injection h with h
                  injection h with h1 h2
                  injection h2 with h2 h3
                  subst h1
                  have hc := ih.1 _ _ hdec
                  have := ih.2.2.2 _ _ _ _ _ _ hrec
                  refine ⟨?_, by simp [Children.count, this.2]⟩
                  rw [wf32Ch_consSome_iff]
                  simp [okChild_of_not_hash c hc.1, hc.2, this.1]
                · exact Except.noConfusion h
              · split at h
                · rename_i hrec
                  injection h with h
                  injection h with h1 h2
                  injection h2 with h2 h3
                  subst h1
                  have := ih.2.2.2 _ _ _ _ _ _ hrec
                  refine ⟨this.1, by simp [Children.count, this.2]⟩
                · exact Except.noConfusion h

theorem decodeNode_wf (bs : Bytes) (n : Node) (h : decodeNode bs = .ok n) :
    n.isHash = false ∧ wf32N n = true := by
  rw [decodeNode] at h
  exact (decode_wf_all _).1 _ _ h

theorem resolveHash_found_wf (db : Store) (l : UpdateLog) (h : Bytes)
    {n : Node} {l1 : UpdateLog} (hres : resolveHash db l h = .found n l1) :
    n.isHash = false ∧ wf32N n = true := by
  rw [resolveHash] at hres
  split at hres
  · exact RRes.noConfusion hres
  · split at hres
    · split at hres
      · rename_i hdec
        injection hres with h1 h2
        subst h1
        exact decodeNode_wf _ _ hdec
      · exact RRes.noConfusion hres
    · split at hres
      · split at hres
        · rename_i hdec
          injection hres with h1 h2
          subst h1
          exact decodeNode_wf _ _ hdec
        · exact RRes.noConfusion hres
      · rw [fetchFromDB] at hres
        split at hres
        · exact RRes.noConfusion hres
        · split at hres
          · exact RRes.noConfusion hres
          · split at hres
            · exact RRes.noConfusion hres
            · rename_i hdec
              injection hres with h1 h2
              subst h1
              exact decodeNode_wf _ _ hdec

theorem Hash_eq_keccak (c : Node) (hch : c.isHash = false) :
    Node.Hash c = keccak256 (Node.Encode c) := by
  cases c with
  | hashN h => simp [Node.isHash] at hch
  | leaf _ _ => rfl
  | ext _ _ => rfl
  | branch _ _ => rfl

theorem Hash_ne_emptyHash (c : Node) (hch : c.isHash = false) : Node.Hash c ≠ EmptyHash := by
  rw [Hash_eq_keccak c hch, EmptyHash]
  intro h
  have h1 := keccak256_injective h
  have h2 := encode_length_pos c hch
  rw [h1] at h2
  simp at h2

theorem capped_32_eq_hash (c : Node) (hch : c.isHash = false)
    (hcap : (Node.Capped c).length = 32) : Node.Capped c = Node.Hash c := by
  rw [capped_of_not_hash c hch] at hcap ⊢
  split
  · rename_i hlt
    rw [if_pos hlt] at hcap
    omega
  · rw [Hash_eq_keccak c hch]

/-- The log entries a read of a freshly built subtree relies on: every
created node whose capped form is its hash is present in `inserted` and
absent from `deleted`. -/
def EnvCovers (L : UpdateLog) (ns : List Node) : Prop :=
  ∀ m ∈ ns, (Node.Capped m).length = 32 →
    alookup L.deleted (Node.Hash m) = none ∧
    alookup L.inserted (Node.Hash m) = some (Node.Encode m)

theorem insLoop_preserve (nrc : Bytes) (xs : List Node) (H encv : Bytes) :
    ∀ l0 : UpdateLog,
    (∀ m ∈ xs, Node.Hash m = H → Node.Encode m = encv) →
    alookup l0.deleted H = none → alookup l0.inserted H = some encv →
    alookup (xs.foldl (mergeInsStep nrc) l0).deleted H = none ∧
      alookup (xs.foldl (mergeInsStep nrc) l0).inserted H = some encv := by
  induction xs with
  | nil => intro l0 _ h1 h2; exact ⟨h1, h2⟩
  | cons m rest ih =>
    intro l0 henc h1 h2
    simp only [List.foldl_cons]
    apply ih
    · intro m' hm' hh
      exact henc m' (by simp [hm']) hh
    · rw [mergeInsStep]
      split
      · simp only [UpdateLog.insert, alookup_aset, alookup_aremove]
        by_cases hh : H = Node.Hash m <;> simp [hh, h1]
      · exact h1
    · rw [mergeInsStep]
      split
      · simp only [UpdateLog.insert, alookup_aset]
        by_cases hh : H = Node.Hash m
        · rw [if_pos hh, henc m (by simp) hh.symm]
        · rw [if_neg hh]
          exact h2
      · exact h2

theorem insLoop_covers (nrc : Bytes) (xs : List Node) :
    ∀ l0 : UpdateLog,
    (∀ m ∈ xs, Node.Hash m = keccak256 (Node.Encode m)) →
    ∀ m ∈ xs, ((Node.Capped m).length = 32 ∨ Node.Capped m = nrc) →
    alookup (xs.foldl (mergeInsStep nrc) l0).deleted (Node.Hash m) = none ∧
      alookup (xs.foldl (mergeInsStep nrc) l0).inserted (Node.Hash m)
        = some (Node.Encode m) := by
  induction xs with
  | nil => intro l0 _ m hm; simp at hm
  | cons m0 rest ih =>
    intro l0 hcons m hm hcnd
    rcases List.mem_cons.mp hm with rfl | hmem
    · simp only [List.foldl_cons]
      apply insLoop_preserve
      · intro m' hm' hh
        apply keccak256_injective
        rw [← hcons m' (by simp [hm']), ← hcons m (by simp), hh]
      · rw [mergeInsStep, if_pos hcnd]
        simp [UpdateLog.insert, alookup_aremove]
      · rw [mergeInsStep, if_pos hcnd]
        simp [UpdateLog.insert, alookup_aset]
    · simp only [List.foldl_cons]
      exact ih _ (fun m' hm' => hcons m' (by simp [hm'])) m hmem hcnd

/-- After `mergeFromInsertResult`, every created 32-capped node — and the
new root whatever its size — resolves from the journal. -/
theorem mergeFromInsertResult_covers (L : UpdateLog) (orh : Bytes) (res : InsertResult)
    (hgood : ∀ m ∈ res.inserted, m.isHash = false) :
    EnvCovers (mergeFromInsertResult L orh res) res.inserted ∧
      (res.newNode ∈ res.inserted →
        alookup (mergeFromInsertResult L orh res).deleted (Node.Hash res.newNode) = none ∧
          alookup (mergeFromInsertResult L orh res).inserted (Node.Hash res.newNode)
            = some (Node.Encode res.newNode)) := by
  have hcons : ∀ m ∈ res.inserted, Node.Hash m = keccak256 (Node.Encode m) :=
    fun m hm => Hash_eq_keccak m (hgood m hm)
  rw [mergeFromInsertResult, UpdateLog.copy, merge_eq]
  constructor
  · intro m hm hcap
    exact insLoop_covers _ res.inserted _ hcons m hm (Or.inl hcap)
  · intro hmem
    exact insLoop_covers _ res.inserted _ hcons res.newNode hmem
      (Or.inr (by rw [newRootCappedOf]))

/-- The walk property of a freshly built subtree: with enough fuel, reading
`sk` out of its canonical decode yields `v` without touching the store. -/
def WalksTo (db : Store) (L : UpdateLog) (n : Node) (sk v : Bytes) : Prop :=
  ∃ g₀, ∀ g, g₀ ≤ g → tryGet db g L (canonN n) sk = .ok (v, L)

/-- Everything `Trie.insert` promises about its result: the new node is
among the created nodes, all created nodes are well-formed non-references,
and under a journal covering the created nodes the new subtree reads back
the inserted value. -/
def GoodRes (res : InsertResult) (sk v : Bytes) : Prop :=
  res.newNode ∈ res.inserted ∧
    (∀ m ∈ res.inserted, m.isHash = false ∧ wf32N m = true) ∧
    ∀ db L, EnvCovers L res.inserted → WalksTo db L res.newNode sk v

/-- Descend from a parent slot into a freshly built child: inline children
are walked directly, hash-referenced children resolve from the covering
journal. -/
theorem walksTo_child (db : Store) (L : UpdateLog) (c : Node) (hch : c.isHash = false)
    (hwf : wf32N c = true)
    (hcov : (Node.Capped c).length = 32 →
      alookup L.deleted (Node.Hash c) = none ∧
        alookup L.inserted (Node.Hash c) = some (Node.Encode c))
    (sk v : Bytes) (hwalk : WalksTo db L c sk v) :
    ∃ g₀, ∀ g, g₀ + 1 ≤ g →
      tryGet db g L (if (Node.Capped c).length = 32
        then Node.hashN (Node.Capped c) else canonN c) sk = .ok (v, L) := by
  obtain ⟨g₀, hg⟩ := hwalk
  refine ⟨g₀, ?_⟩
  intro g hgg
  obtain ⟨g', rfl⟩ : ∃ g', g = g' + 1 := ⟨g - 1, by omega⟩
  split
  · rename_i hcap
    obtain ⟨hdel, hins⟩ := hcov hcap
    rw [capped_32_eq_hash c hch hcap]
    simp only [tryGet]
    rw [resolveHash]
    rw [if_neg (by simp [hdel])]
    rw [hins]
    simp only [decodeNode_Encode c hch hwf]
    exact hg g' (by omega)
  · exact hg (g' + 1) (by omega)

theorem InsertResult.insert_newNode (r : InsertResult) (o : Option Node) :
    (r.insert o).newNode = r.newNode := by cases o <;> rfl

theorem InsertResult.delete_newNode (r : InsertResult) (o : Option Node) :
    (r.delete o).newNode = r.newNode := by cases o <;> rfl

theorem InsertResult.insert_some_inserted (r : InsertResult) (m : Node) :
    (r.insert (some m)).inserted = r.inserted ++ [m] := rfl

theorem InsertResult.insert_none_inserted (r : InsertResult) :
    (r.insert none).inserted = r.inserted := rfl

theorem InsertResult.delete_inserted (r : InsertResult) (o : Option Node) :
    (r.delete o).inserted = r.inserted := by cases o <;> rfl

theorem canonN_leaf (k v : Bytes) : canonN (.leaf k v) = .leaf (keyRound k) v := rfl

theorem canonN_ext (k : Bytes) (c : Node) :
    canonN (.ext k c) = .ext (keyRound k)
      (if (Node.Capped c).length = 32 then .hashN (Node.Capped c) else canonN c) := rfl

theorem canonN_branch (ch : Children) (t : Option Bytes) :
    canonN (.branch ch t) = .branch (canonCh ch) (optBytes (t.getD [])) := rfl

theorem tryGet_leaf (db : Store) (g : Nat) (L : UpdateLog) (k v sk : Bytes) :
    tryGet db (g + 1) L (.leaf k v) sk = .ok (if sk = k then v else [], L) := rfl

theorem tryGet_ext (db : Store) (g : Nat) (L : UpdateLog) (k : Bytes) (c : Node) (sk : Bytes) :
    tryGet db (g + 1) L (.ext k c) sk =
      (if sk.length < k.length then .ok ([], L)
       else if sk.take k.length = k then tryGet db g L c (sk.drop k.length)
       else .ok ([], L)) := rfl

theorem tryGet_branch_nil (db : Store) (g : Nat) (L : UpdateLog) (chc : Children)
    (t : Option Bytes) :
    tryGet db (g + 1) L (.branch chc t) [] = .ok (t.getD [], L) := rfl

theorem tryGet_branch_cons (db : Store) (g : Nat) (L : UpdateLog) (chc : Children)
    (t : Option Bytes) (pos : Nat) (rest : Bytes) :
    tryGet db (g + 1) L (.branch chc t) (pos :: rest) =
      (match chc.get pos with
        | none => .ok ([], L)
        | some c => tryGet db g L c rest) := rfl

/-- A result with the same new node and a possibly larger created list
inherits the walk property. -/
theorem goodRes_of_same (p res : InsertResult) (sk v : Bytes)
    (hp : GoodRes p sk v)
    (hnew : res.newNode = p.newNode)
    (hins : ∀ m ∈ res.inserted, m ∈ p.inserted ∨ (m.isHash = false ∧ wf32N m = true))
    (hsub : ∀ m ∈ p.inserted, m ∈ res.inserted) :
    GoodRes res sk v := by
  obtain ⟨hpmem, hpnodes, hpwalk⟩ := hp
  refine ⟨by rw [hnew]; exact hsub _ hpmem, ?_, ?_⟩
  · intro m hm
    rcases hins m hm with h | h
    · exact hpnodes m h
    · exact h
  · intro db L hEnv
    rw [hnew]
    exact hpwalk db L (fun m hm => hEnv m (hsub m hm))

/-- Wrapping a freshly built subtree into an extension whose key is the
consumed prefix of the search key preserves the walk property. -/
theorem goodRes_wrap (p res : InsertResult) (sk v K : Bytes)
    (hp : GoodRes p (sk.drop K.length) v)
    (hnew : res.newNode = Node.ext K p.newNode)
    (hins : res.inserted = p.inserted ++ [Node.ext K p.newNode])
    (hK : sk.take K.length = K)
    (hKlen : K.length ≤ sk.length)
    (hKvalid : ∀ x ∈ K, x < 16) :
    GoodRes res sk v := by
  obtain ⟨hpmem, hpnodes, hpwalk⟩ := hp
  have hpn := hpnodes p.newNode hpmem
  refine ⟨by rw [hnew, hins]; exact List.mem_append_right _ (by simp), ?_, ?_⟩
  · intro m hm
    rw [hins] at hm
    rcases List.mem_append.mp hm with h | h
    · exact hpnodes m h
    · rw [List.mem_singleton] at h
      subst h
      refine ⟨rfl, ?_⟩
      rw [wf32N_ext_iff]
      simp [okChild_of_not_hash _ hpn.1, hpn.2]
  · intro db L hEnv
    have hEnv' : EnvCovers L p.inserted := fun m hm =>
      hEnv m (by rw [hins]; exact List.mem_append_left _ hm)
    have hcov := fun hcap => hEnv p.newNode
      (by rw [hins]; exact List.mem_append_left _ hpmem) hcap
    obtain ⟨g₀, hg⟩ := walksTo_child db L p.newNode hpn.1 hpn.2 hcov _ v
      (hpwalk db L hEnv')
    refine ⟨g₀ + 2, ?_⟩
    intro g hgg
    obtain ⟨g', rfl⟩ : ∃ g', g = g' + 1 := ⟨g - 1, by omega⟩
    rw [hnew, canonN_ext, keyRound_valid K hKvalid, tryGet_ext]
    rw [if_neg (by omega : ¬ sk.length < K.length)]
    rw [if_pos hK]
    exact hg g' (by omega)

/-- A branch whose slot for the next nibble holds a freshly built subtree
walks into that subtree. -/
theorem goodRes_branch (res : InsertResult) (pos : Nat) (rest v : Bytes) (ch : Children)
    (t : Option Bytes) (c' : Node)
    (hcount : ch.count = 16)
    (hpos : pos < 16)
    (hnew : res.newNode = updateChild ch t pos (some c'))
    (hc' : c'.isHash = false ∧ wf32N c' = true)
    (hc'mem : c' ∈ res.inserted)
    (hmem : res.newNode ∈ res.inserted)
    (hnodes : ∀ m ∈ res.inserted, m.isHash = false ∧ wf32N m = true)
    (hwalkc : ∀ db L, EnvCovers L res.inserted → WalksTo db L c' rest v) :
    GoodRes res (pos :: rest) v := by
  refine ⟨hmem, hnodes, ?_⟩
  intro db L hEnv
  have hcov := fun hcap => hEnv c' hc'mem hcap
  obtain ⟨g₀, hg⟩ := walksTo_child db L c' hc'.1 hc'.2 hcov rest v (hwalkc db L hEnv)
  refine ⟨g₀ + 2, ?_⟩
  intro g hgg
  obtain ⟨g', rfl⟩ : ∃ g', g = g' + 1 := ⟨g - 1, by omega⟩
  rw [hnew, updateChild, canonN_branch, tryGet_branch_cons]
  rw [canonCh_get]
  rw [Children.get_set_self ch pos (some c') (by omega)]
  simp only
  rw [if_neg (capped_length_ne_zero c' hc'.2)]
  rw [show (if (Node.Capped c').length = 32 then some (Node.hashN (Node.Capped c'))
      else some (canonN c')) = some (if (Node.Capped c').length = 32
      then Node.hashN (Node.Capped c') else canonN c') from by split <;> rfl]
  exact hg g' (by omega)

theorem newInsertResult_newNode (n : Node) : (newInsertResult n).newNode = n := rfl

theorem newInsertResult_inserted (n : Node) : (newInsertResult n).inserted = [] := rfl

theorem Trie.mk_rootHash (a : Bytes) (l : UpdateLog) : (Trie.mk a l).rootHash = a := rfl

theorem Trie.mk_log (a : Bytes) (l : UpdateLog) : (Trie.mk a l).log = l := rfl

theorem ok_pair_inj {α β : Type} {a c : α} {b d : β}
    (h : PRes.ok (a, b) = PRes.ok (c, d)) : a = c ∧ b = d := by
  injection h with h'
  injection h' with h1 h2
  exact ⟨h1, h2⟩

theorem bytesToNibbles_lt : ∀ (key : Bytes), (∀ x ∈ key, x < 256) →
    ∀ x ∈ bytesToNibbles key, x < 16
  | [], _, x, hx => by simp [bytesToNibbles] at hx
  | b :: rest, h, x, hx => by
    simp only [bytesToNibbles, List.mem_cons] at hx
    rcases hx with rfl | rfl | hx
    · exact Nat.div_lt_of_lt_mul (by have := h b (by simp); omega)
    · exact Nat.mod_lt _ (by omega)
    · exact bytesToNibbles_lt rest (fun y hy => h y (by simp [hy])) x hx

theorem wf_branchWithTarget (v : Bytes) : wf32N (branchWithTarget v) = true := by
  rw [branchWithTarget, wf32N_branch_iff]
  simp [Children.empty16, Children.count_emptyN, wf32Ch_emptyN]

theorem wf_branchWithChild (pos : Nat) (n : Node) (t : Option Bytes)
    (hok : okChild n = true) (hwf : wf32N n = true) :
    wf32N (branchWithChild pos n t) = true := by
  rw [branchWithChild, wf32N_branch_iff]
  simp [Children.empty16, Children.count_set, Children.count_emptyN,
    wf32Ch_set _ pos n (wf32Ch_emptyN 16) hok hwf]

/-- The full induction: each of the four insert functions, when it
returns without fuel exhaustion or panic, produces a `GoodRes`: the new
subtree reads back the inserted value under any journal covering its
created nodes. -/
theorem insert_good_all (db : Store) : ∀ fuel : Nat,
    (∀ log n sk v res log₁, wf32N n = true → (∀ x ∈ sk, x < 16) →
      Trie.insert db fuel log n sk v = .ok (res, log₁) → GoodRes res sk v) ∧
    (∀ log lk lv sk v res log₁, (∀ x ∈ sk, x < 16) →
      insertToLeaf db fuel log lk lv sk v = .ok (res, log₁) → GoodRes res sk v) ∧
    (∀ log ek ec sk v res log₁, wf32N (.ext ek ec) = true → (∀ x ∈ sk, x < 16) →
      insertToExt db fuel log ek ec sk v = .ok (res, log₁) → GoodRes res sk v) ∧
    (∀ log ch t sk v res log₁, ch.count = 16 → wf32Ch ch = true → (∀ x ∈ sk, x < 16) →
      insertToBranch db fuel log ch t sk v = .ok (res, log₁) → GoodRes res sk v) := by
  intro fuel
  induction fuel with
  | zero =>
    refine ⟨?_, ?_, ?_, ?_⟩
    · intro log n sk v res log₁ _ _ h
      exact PRes.noConfusion h
    · intro log lk lv sk v res log₁ _ h
      exact PRes.noConfusion h
    · intro log ek ec sk v res log₁ _ _ h
      exact PRes.noConfusion h
    · intro log ch t sk v res log₁ _ _ _ h
      exact PRes.noConfusion h
  | succ fuel ih =>
    obtain ⟨ih1, ih2, ih3, ih4⟩ := ih
    refine ⟨?_, ?_, ?_, ?_⟩
    · -- Trie.insert dispatches on the node shape
      intro log n sk v res log₁ hwf hsk h
      cases n with
      | leaf k val => exact ih2 log k val sk v res log₁ hsk h
      | ext k c => exact ih3 log k c sk v res log₁ hwf hsk h
      | branch ch t =>
        rw [wf32N_branch_iff, Bool.and_eq_true, decide_eq_true_eq] at hwf
        exact ih4 log ch t sk v res log₁ hwf.1 hwf.2 hsk h
      | hashN hsh =>
        simp only [Trie.insert] at h
        split at h
        · rename_i n1 l1 hres
          exact ih1 l1 n1 sk v res log₁ (resolveHash_found_wf db log hsh hres).2 hsk h
        · exact PRes.noConfusion h
        · exact PRes.noConfusion h
    · -- insertToLeaf
      intro log lk lv sk v res log₁ hsk h
      by_cases hml1 : matchingLength sk lk = sk.length ∧ matchingLength sk lk = lk.length
      · -- exact match: replace the leaf
        simp only [insertToLeaf] at h
        rw [if_pos hml1] at h
        obtain ⟨h1, h2⟩ := ok_pair_inj h
        subst h1
        subst h2
        refine ⟨?_, ?_, ?_⟩
        · show Node.leaf sk v ∈ [Node.leaf sk v]
          simp
        · intro m hm
          have hm' : m ∈ [Node.leaf sk v] := hm
          rw [List.mem_singleton] at hm'
          subst hm'
          exact ⟨rfl, rfl⟩
        · intro db' L _
          refine ⟨1, ?_⟩
          intro g hg
          obtain ⟨g', rfl⟩ : ∃ g', g = g' + 1 := ⟨g - 1, by omega⟩
          show tryGet db' (g' + 1) L (canonN (Node.leaf sk v)) sk = .ok (v, L)
          rw [canonN_leaf, keyRound_valid sk hsk, tryGet_leaf, if_pos rfl]
      · by_cases hml0 : matchingLength sk lk = 0
        · -- no common prefix: push the leaf down a fresh branch
          cases lk with
          | nil =>
            simp only [insertToLeaf] at h
            rw [if_neg hml1, if_pos hml0] at h
            obtain ⟨p, hp, hq⟩ := PRes.bind_ok h
            obtain ⟨h1, h2⟩ := ok_pair_inj hq
            subst h1
            subst h2
            have hgp := ih1 log (branchWithTarget lv) sk v p.1 p.2
              (wf_branchWithTarget lv) hsk hp
            exact goodRes_of_same p.1 _ sk v hgp rfl (fun m hm => Or.inl hm) (fun m hm => hm)
          | cons k0 krest =>
            simp only [insertToLeaf] at h
            rw [if_neg hml1, if_pos hml0] at h
            obtain ⟨p, hp, hq⟩ := PRes.bind_ok h
            obtain ⟨h1, h2⟩ := ok_pair_inj hq
            subst h1
            subst h2
            have hgp := ih1 log (branchWithChild k0 (Node.leaf krest lv) none) sk v p.1 p.2
              (wf_branchWithChild k0 (Node.leaf krest lv) none rfl rfl) hsk hp
            refine goodRes_of_same p.1 _ sk v hgp rfl ?_ ?_
            · intro m hm
              have hm' : m ∈ p.1.inserted ++ [Node.leaf krest lv] := hm
              rcases List.mem_append.mp hm' with h' | h'
              · exact Or.inl h'
              · right
                rw [List.mem_singleton] at h'
                subst h'
                exact ⟨rfl, rfl⟩
            · intro m hm
              show m ∈ p.1.inserted ++ [Node.leaf krest lv]
              exact List.mem_append_left _ hm
        · -- partial match: recurse below, wrap into an extension
          simp only [insertToLeaf] at h
          rw [if_neg hml1, if_neg hml0] at h
          obtain ⟨p, hp, hq⟩ := PRes.bind_ok h
          obtain ⟨h1, h2⟩ := ok_pair_inj hq
          subst h1
          subst h2
          have hwfT : wf32N (if matchingLength sk lk = lk.length then branchWithTarget lv
              else Node.leaf (lk.drop (matchingLength sk lk)) lv) = true := by
            split
            · exact wf_branchWithTarget lv
            · rfl
          have hskd : ∀ x ∈ sk.drop (matchingLength sk lk), x < 16 :=
            fun x hx => hsk x (List.drop_subset _ _ hx)
          have hgp := ih1 log _ _ v p.1 p.2 hwfT hskd hp
          have hmlL := matchingLength_le_right sk lk
          have hlen : (lk.take (matchingLength sk lk)).length = matchingLength sk lk := by
            rw [List.length_take]
            omega
          refine goodRes_wrap p.1 _ sk v (lk.take (matchingLength sk lk)) ?_ rfl rfl ?_ ?_ ?_
          · rw [hlen]
            exact hgp
          · rw [hlen]
            exact matchingLength_take sk lk
          · rw [hlen]
            exact matchingLength_le_left sk lk
          · intro x hx
            rw [← matchingLength_take sk lk] at hx
            exact hsk x (List.take_subset _ _ hx)
    · -- insertToExt
      intro log ek ec sk v res log₁ hwf hsk h
      rw [wf32N_ext_iff, Bool.and_eq_true] at hwf
      obtain ⟨hok, hwfec⟩ := hwf
      by_cases hml0 : matchingLength sk ek = 0
      · cases ek with
        | nil =>
          simp only [insertToExt] at h
          rw [if_pos hml0] at h
          exact PRes.noConfusion h
        | cons k0 krest =>
          simp only [insertToExt] at h
          rw [if_pos hml0] at h
          obtain ⟨p, hp, hq⟩ := PRes.bind_ok h
          obtain ⟨h1, h2⟩ := ok_pair_inj hq
          subst h1
          subst h2
          cases krest with
          | nil =>
            have hgp := ih1 log (branchWithChild k0 ec none) sk v p.1 p.2
              (wf_branchWithChild k0 ec none hok hwfec) hsk hp
            exact goodRes_of_same p.1 _ sk v hgp rfl (fun m hm => Or.inl hm) (fun m hm => hm)
          | cons k1 krest2 =>
            have hwfE : wf32N (Node.ext (k1 :: krest2) ec) = true := by
              rw [wf32N_ext_iff]
              simp [hok, hwfec]
            have hgp := ih1 log (branchWithChild k0 (Node.ext (k1 :: krest2) ec) none) sk v
              p.1 p.2 (wf_branchWithChild k0 (Node.ext (k1 :: krest2) ec) none rfl hwfE) hsk hp
            refine goodRes_of_same p.1 _ sk v hgp rfl ?_ ?_
            · intro m hm
              have hm' : m ∈ p.1.inserted ++ [Node.ext (k1 :: krest2) ec] := hm
              rcases List.mem_append.mp hm' with h' | h'
              · exact Or.inl h'
              · right
                rw [List.mem_singleton] at h'
                subst h'
                exact ⟨rfl, hwfE⟩
            · intro m hm
              show m ∈ p.1.inserted ++ [Node.ext (k1 :: krest2) ec]
              exact List.mem_append_left _ hm
      · by_cases hmlE : matchingLength sk ek = ek.length
        · -- the whole extension key matches
          simp only [insertToExt] at h
          rw [if_neg hml0, if_pos hmlE] at h
          obtain ⟨p, hp, hq⟩ := PRes.bind_ok h
          obtain ⟨h1, h2⟩ := ok_pair_inj hq
          subst h1
          subst h2
          have hskd : ∀ x ∈ sk.drop (matchingLength sk ek), x < 16 :=
            fun x hx => hsk x (List.drop_subset _ _ hx)
          have hgp := ih1 log ec _ v p.1 p.2 hwfec hskd hp
          have hKeq : sk.take ek.length = ek := by
            have h1 := matchingLength_take sk ek
            rw [hmlE] at h1
            rw [h1, List.take_length]
          refine goodRes_wrap p.1 _ sk v ek ?_ rfl rfl hKeq ?_ ?_
          · rw [← hmlE]
            exact hgp
          · rw [← hmlE]
            exact matchingLength_le_left sk ek
          · intro x hx
            rw [← hKeq] at hx
            exact hsk x (List.take_subset _ _ hx)
        · -- split the extension key
          simp only [insertToExt] at h
          rw [if_neg hml0, if_neg hmlE] at h
          obtain ⟨p, hp, hq⟩ := PRes.bind_ok h
          obtain ⟨h1, h2⟩ := ok_pair_inj hq
          subst h1
          subst h2
          have hwfT : wf32N (Node.ext (ek.drop (matchingLength sk ek)) ec) = true := by
            rw [wf32N_ext_iff]
            simp [hok, hwfec]
          have hskd : ∀ x ∈ sk.drop (matchingLength sk ek), x < 16 :=
            fun x hx => hsk x (List.drop_subset _ _ hx)
          have hgp := ih1 log _ _ v p.1 p.2 hwfT hskd hp
          have hmlL := matchingLength_le_right sk ek
          have hlen : (ek.take (matchingLength sk ek)).length = matchingLength sk ek := by
            rw [List.length_take]
            omega
          refine goodRes_wrap p.1 _ sk v (ek.take (matchingLength sk ek)) ?_ rfl rfl ?_ ?_ ?_
          · rw [hlen]
            exact hgp
          · rw [hlen]
            exact matchingLength_take sk ek
          · rw [hlen]
            exact matchingLength_le_left sk ek
          · intro x hx
            rw [← matchingLength_take sk ek] at hx
            exact hsk x (List.take_subset _ _ hx)
    · -- insertToBranch
      intro log ch t sk v res log₁ hcount hwfch hsk h
      cases sk with
      | nil =>
        simp only [insertToBranch] at h
        obtain ⟨h1, h2⟩ := ok_pair_inj h
        subst h1
        subst h2
        refine ⟨?_, ?_, ?_⟩
        · show updateTarget ch v ∈ [updateTarget ch v]
          simp
        · intro m hm
          have hm' : m ∈ [updateTarget ch v] := hm
          rw [List.mem_singleton] at hm'
          subst hm'
          refine ⟨rfl, ?_⟩
          rw [updateTarget, wf32N_branch_iff]
          simp [hcount, hwfch]
        · intro db' L _
          refine ⟨1, ?_⟩
          intro g hg
          obtain ⟨g', rfl⟩ : ∃ g', g = g' + 1 := ⟨g - 1, by omega⟩
          show tryGet db' (g' + 1) L (canonN (updateTarget ch v)) [] = .ok (v, L)
          rw [updateTarget, canonN_branch, tryGet_branch_nil, optBytes_getD, optBytes_getD]
      | cons pos rest =>
        have hpos : pos < 16 := hsk pos (by simp)
        have hrest : ∀ x ∈ rest, x < 16 := fun x hx => hsk x (by simp [hx])
        simp only [insertToBranch] at h
        cases hget : ch.get pos with
        | some child =>
          simp only [hget] at h
          obtain ⟨p, hp, hq⟩ := PRes.bind_ok h
          obtain ⟨h1, h2⟩ := ok_pair_inj hq
          subst h1
          subst h2
          have hgp := ih1 log child rest v p.1 p.2 (wf32Ch_get ch pos child hwfch hget) hrest hp
          obtain ⟨hpmem, hpnodes, hpwalk⟩ := hgp
          have hpn := hpnodes p.1.newNode hpmem
          refine goodRes_branch _ pos rest v ch t p.1.newNode hcount hpos rfl hpn ?_ ?_ ?_ ?_
          · show p.1.newNode ∈ p.1.inserted ++ [updateChild ch t pos (some p.1.newNode)]
            exact List.mem_append_left _ hpmem
          · show updateChild ch t pos (some p.1.newNode) ∈
              p.1.inserted ++ [updateChild ch t pos (some p.1.newNode)]
            exact List.mem_append_right _ (by simp)
          · intro m hm
            have hm' : m ∈ p.1.inserted ++ [updateChild ch t pos (some p.1.newNode)] := hm
            rcases List.mem_append.mp hm' with h' | h'
            · exact hpnodes m h'
            · rw [List.mem_singleton] at h'
              subst h'
              refine ⟨rfl, ?_⟩
              rw [updateChild, wf32N_branch_iff]
              simp [Children.count_set, hcount,
                wf32Ch_set ch pos p.1.newNode hwfch (okChild_of_not_hash _ hpn.1) hpn.2]
          · intro db' L hEnv
            exact hpwalk db' L (fun m hm => hEnv m (List.mem_append_left _ hm))
        | none =>
          simp only [hget] at h
          obtain ⟨h1, h2⟩ := ok_pair_inj h
          subst h1
          subst h2
          refine goodRes_branch _ pos rest v ch t (Node.leaf rest v) hcount hpos rfl
            ⟨rfl, rfl⟩ ?_ ?_ ?_ ?_
          · show Node.leaf rest v ∈
              [updateChild ch t pos (some (Node.leaf rest v)), Node.leaf rest v]
            simp
          · show updateChild ch t pos (some (Node.leaf rest v)) ∈
              [updateChild ch t pos (some (Node.leaf rest v)), Node.leaf rest v]
            simp
          · intro m hm
            have hm' : m ∈
                [updateChild ch t pos (some (Node.leaf rest v)), Node.leaf rest v] := hm
            rcases List.mem_cons.mp hm' with h' | h'
            · subst h'
              refine ⟨rfl, ?_⟩
              rw [updateChild, wf32N_branch_iff]
              simp [Children.count_set, hcount,
                wf32Ch_set ch pos (Node.leaf rest v) hwfch rfl rfl]
            · rw [List.mem_singleton] at h'
              subst h'
              exact ⟨rfl, rfl⟩
          · intro db' L _
            refine ⟨1, ?_⟩
            intro g hg
            obtain ⟨g', rfl⟩ : ∃ g', g = g' + 1 := ⟨g - 1, by omega⟩
            show tryGet db' (g' + 1) L (canonN (Node.leaf rest v)) rest = .ok (v, L)
            rw [canonN_leaf, keyRound_valid rest hrest, tryGet_leaf, if_pos rfl]

/-- A trie whose root hash points at the new node of a `GoodRes`, with the
journal produced by merging that result, reads the inserted value back. -/
theorem get_after_merge (db : Store) (L0 : UpdateLog) (orh : Bytes) (res : InsertResult)
    (key v : Bytes) (hgood : GoodRes res (bytesToNibbles key) v) :
    ∃ g₀, ∀ g, g₀ ≤ g →
      Trie.Get db g ⟨Node.Hash res.newNode, mergeFromInsertResult L0 orh res⟩ key
        = .ok (v, mergeFromInsertResult L0 orh res) := by
  obtain ⟨hmem, hnodes, hwalk⟩ := hgood
  have hpn := hnodes res.newNode hmem
  have hcov := mergeFromInsertResult_covers L0 orh res (fun m hm => (hnodes m hm).1)
  obtain ⟨hdel, hinsL⟩ := hcov.2 hmem
  obtain ⟨g₀, hw⟩ := hwalk db (mergeFromInsertResult L0 orh res) hcov.1
  have hr : resolveHash db (mergeFromInsertResult L0 orh res) (Node.Hash res.newNode)
      = .found (canonN res.newNode) (mergeFromInsertResult L0 orh res) := by
    rw [resolveHash, hdel]
    rw [if_neg (by simp : ¬((none : Option Bytes).isSome = true))]
    simp only [hinsL]
    simp only [decodeNode_Encode res.newNode hpn.1 hpn.2]
  refine ⟨g₀, ?_⟩
  intro g hg
  simp only [Trie.Get, Trie.mk_rootHash, Trie.mk_log]
  rw [if_neg (Hash_ne_emptyHash res.newNode hpn.1)]
  simp only [hr]
  exact hw g hg

/-- C1: a successful `Insert` of `key`/`value` yields a trie on which `Get`
of `key` (with enough fuel) returns `value`, leaving the new trie's journal
unchanged. -/
theorem C1_insert_then_get (db : Store) (t : Trie) (key value : Bytes)
    (fuel : Nat) (t' : Trie) (log₁ : UpdateLog)
    (hkey : ∀ x ∈ key, x < 256)
    (hins : Trie.Insert db fuel t key value = .ok (t', log₁)) :
    ∃ g₀, ∀ g, g₀ ≤ g → Trie.Get db g t' key = .ok (value, t'.log) := by
  have hnib : ∀ x ∈ bytesToNibbles key, x < 16 := bytesToNibbles_lt key hkey
  simp only [Trie.Insert] at hins
  by_cases hroot : t.rootHash = EmptyHash
  · rw [if_pos hroot] at hins
    obtain ⟨h1, h2⟩ := ok_pair_inj hins
    subst h1
    subst h2
    have hgood : GoodRes
        ((newInsertResult (Node.leaf (bytesToNibbles key) value)).insert
          (some (Node.leaf (bytesToNibbles key) value))) (bytesToNibbles key) value := by
      refine ⟨?_, ?_, ?_⟩
      · show Node.leaf (bytesToNibbles key) value ∈ [Node.leaf (bytesToNibbles key) value]
        simp
      · intro m hm
        have hm' : m ∈ [Node.leaf (bytesToNibbles key) value] := hm
        rw [List.mem_singleton] at hm'
        subst hm'
        exact ⟨rfl, rfl⟩
      · intro db' L _
        refine ⟨1, ?_⟩
        intro g hg
        obtain ⟨g', rfl⟩ : ∃ g', g = g' + 1 := ⟨g - 1, by omega⟩
        show tryGet db' (g' + 1) L (canonN (Node.leaf (bytesToNibbles key) value))
          (bytesToNibbles key) = .ok (value, L)
        rw [canonN_leaf, keyRound_valid _ hnib, tryGet_leaf, if_pos rfl]
    exact get_after_merge db t.log t.rootHash
      ((newInsertResult (Node.leaf (bytesToNibbles key) value)).insert
        (some (Node.leaf (bytesToNibbles key) value))) key value hgood
  · rw [if_neg hroot] at hins
    split at hins
    · exact PRes.noConfusion hins
    · exact PRes.noConfusion hins
    · rename_i rootNode log1 hres
      obtain ⟨p, hp, hq⟩ := PRes.bind_ok hins
      obtain ⟨h1, h2⟩ := ok_pair_inj hq
      subst h1
      subst h2
      have hgp := (insert_good_all db fuel).1 log1 rootNode (bytesToNibbles key) value
        p.1 p.2 (resolveHash_found_wf db t.log t.rootHash hres).2 hnib hp
      exact get_after_merge db p.2 t.rootHash p.1 key value hgp

theorem C1_insert_then_get_witness :
    ∃ t' log₁, Trie.Insert [] 1 (NewTrie EmptyHash) [1] [2] = .ok (t', log₁) ∧
      ∃ g₀, ∀ g, g₀ ≤ g → Trie.Get [] g t' [1] = .ok ([2], t'.log) := by
  refine ⟨_, _, rfl, ?_⟩
  exact C1_insert_then_get [] (NewTrie EmptyHash) [1] [2] 1 _ _ (by decide) rfl
